import Mathlib

/-!
Verification development for the SimPEG excerpt (PGI Gaussian-mixture utilities
in `SimPEG/utils/pgi_utils.py` and the dask DC-resistivity simulation wrappers in
`SimPEG/dask/electromagnetics/static/resistivity/simulation.py`).

The Python code is shallowly embedded over exact rationals (`ℚ`); numpy arrays
become lists, in-place mutation becomes explicit state passing, and the
functions imported from scikit-learn (`_compute_precision_cholesky`, the
`_estimate_gaussian_covariances_*` family, `_estimate_log_prob`) — which are
external collaborators, not part of this repository — are abstracted as
function parameters so that every theorem quantifies over them.
-/

set_option maxHeartbeats 1000000

namespace SimPEGSpec

/-! ### Basic numeric containers -/

/-- A matrix as a list of rows of rationals (a 2-d numpy array). -/
abbrev Mat := List (List ℚ)

/-- Mixing weights: either a per-cluster vector (`weights_.ndim == 1`) or a
samples × clusters matrix (spatially varying weights, `ndim == 2`). -/
inductive WVal where
  | vec (w : List ℚ)
  | mat (m : Mat)
deriving DecidableEq, Repr

/-- Per-family covariance/precision storage, mirroring the shape conventions of
`sklearn.mixture` arrays: `full` is (n_components, d, d), `tied` is a single
(d, d) matrix, `diag` is (n_components, d), `spherical` is (n_components,). -/
inductive CovArr where
  | full (mats : List Mat)
  | tied (m : Mat)
  | diag (rows : Mat)
  | spherical (v : List ℚ)
deriving DecidableEq, Repr

/-- Column sums of a list of rows, truncated/padded to width `K`
(numpy `sum(axis=0)` on an (n, K) array; rows are assumed rectangular). -/
def colSum (K : Nat) (rows : List (List ℚ)) : List ℚ :=
  (List.range K).map (fun j => (rows.map (fun r => r.getD j 0)).sum)

/-- Elementwise vector sum (`a + b`, truncating like `List.zipWith`). -/
def vecAdd (a b : List ℚ) : List ℚ := List.zipWith (· + ·) a b

/-- Scalar times vector. -/
def vecSMul (c : ℚ) (a : List ℚ) : List ℚ := a.map (fun x => c * x)

/-- Matrix transpose of a rectangular list-of-rows matrix. -/
def transposeM (A : Mat) : Mat :=
  (List.range ((A.getD 0 []).length)).map (fun j => A.map (fun r => r.getD j 0))

/-- Matrix product (`np.dot` of two 2-d arrays). -/
def matMul (A B : Mat) : Mat :=
  A.map (fun row =>
    (List.range ((B.getD 0 []).length)).map
      (fun j => (List.zipWith (fun a brow => a * brow.getD j 0) row B).sum))

/-- Elementwise matrix sum. -/
def matAdd (A B : Mat) : Mat := List.zipWith vecAdd A B

/-- Scalar times matrix. -/
def matSMul (c : ℚ) (A : Mat) : Mat := A.map (vecSMul c)

/-- Reindex a list of rationals by an index list (numpy fancy indexing
`a[indx]`; out-of-range reads give 0 where numpy would raise). -/
def reindexQ (a : List ℚ) (indx : List Nat) : List ℚ :=
  indx.map (fun j => a.getD j 0)

/-- Reindex a list of rows by an index list (`a[indx]` on a 2-d array). -/
def reindexRows (a : List (List ℚ)) (indx : List Nat) : List (List ℚ) :=
  indx.map (fun j => a.getD j [])

/-- Reindex a list of matrices by an index list. -/
def reindexMats (a : List Mat) (indx : List Nat) : List Mat :=
  indx.map (fun j => a.getD j [])

/-- Per-cluster reindexing of a covariance-family array (`a[indx]`); a `tied`
array has no per-cluster axis and is returned unchanged (the source only
reindexes when `covariance_type != "tied"`). -/
def CovArr.reindex (A : CovArr) (indx : List Nat) : CovArr :=
  match A with
  | .full l => .full (reindexMats l indx)
  | .tied m => .tied m
  | .diag r => .diag (reindexRows r indx)
  | .spherical v => .spherical (reindexQ v indx)

/-- Elementwise square of a covariance-family array (`prec_chol ** 2`). -/
def CovArr.squareElems (A : CovArr) : CovArr :=
  match A with
  | .full l => .full (l.map (fun M => M.map (fun r => r.map (fun x => x * x))))
  | .tied m => .tied (m.map (fun r => r.map (fun x => x * x)))
  | .diag r => .diag (r.map (fun row => row.map (fun x => x * x)))
  | .spherical v => .spherical (v.map (fun x => x * x))

/-! ### The dask DC-resistivity simulation wrappers -/

/-- Modelled from the spec: the `Zero` sentinel from `SimPEG.utils` (imported
by `compute_J` but not under `src/`), "a zero structure" whose addition to any
block is a no-op ("sparse zero blocks cost nothing to add"); `arr` is an
ordinary numeric block. -/
inductive SimVal where
  | zero
  | arr (v : List ℚ)
deriving DecidableEq, Repr

/-- Negation of a block (`-dA_dmT`); negating the zero structure keeps it zero. -/
def SimVal.neg : SimVal → SimVal
  | .zero => .zero
  | .arr v => .arr (v.map (fun x => -x))

/-- Addition with the `Zero` sentinel as a two-sided additive identity
(modelled from the spec for `SimPEG.utils.Zero`); numeric blocks add
elementwise. -/
def SimVal.add : SimVal → SimVal → SimVal
  | .zero, y => y
  | x, .zero => x
  | .arr a, .arr b => .arr (vecAdd a b)

/-- Test for the `Zero` sentinel (`isinstance(x, Zero)` in `compute_J`). -/
def SimVal.isZero : SimVal → Bool
  | .zero => true
  | .arr _ => false

/-- The per-receiver accumulation of `compute_J`
(`src/SimPEG/dask/electromagnetics/static/resistivity/simulation.py`,
lines 145-155): start from `-dA_dmT`, then add `dRHS_dmT` unless it is the
`Zero` sentinel, then add `df_dmT` unless it is the `Zero` sentinel. -/
def compute_J_block (dA_dmT dRHS_dmT df_dmT : SimVal) : SimVal :=
  let du := SimVal.neg dA_dmT
  let du := if dRHS_dmT.isZero then du else du.add dRHS_dmT
  if df_dmT.isZero then du else du.add df_dmT

/-- The same accumulation without the skip: every contribution is added
unconditionally, with the `Zero` sentinel acting as an additive zero. -/
def compute_J_block_noskip (dA_dmT dRHS_dmT df_dmT : SimVal) : SimVal :=
  ((SimVal.neg dA_dmT).add dRHS_dmT).add df_dmT

/-- State of a dask DC simulation, restricted to the attributes
`dask_getJtJdiag` touches: the current model, the (materialized) sensitivity
matrix, and the `gtgdiag` cache. -/
structure SimState where
  model : List ℚ
  Jmatrix : Mat
  gtgdiag : Option (List ℚ)
deriving DecidableEq, Repr

/-- Column sums of squares: `da.sum(self.Jmatrix ** 2, axis=0)`. -/
def jtj_diag_noW (J : Mat) : List ℚ :=
  colSum ((J.getD 0 []).length) (J.map (fun r => r.map (fun x => x * x)))

/-- `da.sum((w * self.Jmatrix) ** 2, axis=0)` where `w = W.diagonal()[:, None]`
scales row `i` of `J` by `w i`. -/
def jtj_diag_W (w : List ℚ) (J : Mat) : List ℚ :=
  jtj_diag_noW (List.zipWith (fun wi r => r.map (fun x => wi * x)) w J)

/-- `dask_getJtJdiag` (`src/.../resistivity/simulation.py`, lines 73-88):
set the model, then compute and cache the diagonal of `JᵀJ` only when the
`gtgdiag` cache is empty, and return the cache. `W` is represented by its
diagonal. Returns (returned diagonal, new state). -/
def dask_getJtJdiag (s : SimState) (m : List ℚ) (W : Option (List ℚ)) :
    List ℚ × SimState :=
  let s := { s with model := m }
  match s.gtgdiag with
  | some d => (d, s)
  | none =>
      let d := match W with
        | none => jtj_diag_noW s.Jmatrix
        | some w => jtj_diag_W w s.Jmatrix
      (d, { s with gtgdiag := some d })

/-! ### Fixed-membership forcing in `GaussianMixtureWithPrior.fit` -/

/-- Row `r` of the `aux` matrix from `fit` (pgi_utils.py lines 873-876): the
log-responsibility row is `-inf` everywhere (`⊥`) except `0` at the
constrained cluster `c`.  `K` is `n_components`. -/
def oneHotLogRow (K c : Nat) : List (WithBot ℚ) :=
  (List.range K).map (fun j => if j = c then (0 : WithBot ℚ) else ⊥)

/-- The forcing block of `GaussianMixtureWithPrior.fit` (lines 871-877):
`log_resp[fixed_membership[:, 0]] = aux` overwrites, for each constrained pair
`(i, c)`, row `i` of the log-responsibility matrix with the one-hot log row of
`c`.  Sequential row assignment reproduces numpy fancy-assignment semantics
(a repeated sample index keeps the last pair's row). -/
def force_log_resp (K : Nat) (fm : List (Nat × Nat))
    (logResp : List (List (WithBot ℚ))) : List (List (WithBot ℚ)) :=
  fm.foldl (fun lr p => lr.set p.1 (oneHotLogRow K p.2)) logResp

/-! ### The weighted Gaussian-mixture data model -/

/-- The mutable parameter state of a `WeightedGaussianMixture` /
`GaussianMixtureWithPrior` object, restricted to the attributes the embedded
functions read or write.  `vol` is the per-sample volume weight vector
(`self.mesh.vol`, possibly restricted to active cells), and `n_components`,
`covariance_type` are the fixed configuration. -/
structure GMM where
  weights_ : WVal
  means_ : List (List ℚ)
  covariances_ : CovArr
  precisions_ : CovArr
  precisions_cholesky_ : CovArr
  covariances_cholesky_ : CovArr
  covariance_type : String
  vol : List ℚ
  n_components : Nat
deriving DecidableEq, Repr

/-- An abstract stand-in for scikit-learn's `_compute_precision_cholesky`
(imported by pgi_utils.py from `sklearn.mixture._gaussian_mixture`; an
external collaborator, so every theorem quantifies over it). -/
abbrev CholFn := CovArr → String → CovArr

/-- Derivation of `precisions_` from `precisions_cholesky_` in
`compute_clusters_precision` (pgi_utils.py lines 351-359): `full` takes
`prec_chol @ prec_chol.T` per cluster, `tied` once, all other families square
elementwise.  A constructor/type mismatch (where numpy would raise a shape
error) passes the array through. -/
def derivPrecisions (pc : CovArr) (ty : String) : CovArr :=
  if ty = "full" then
    match pc with
    | .full l => .full (l.map (fun L => matMul L (transposeM L)))
    | x => x
  else if ty = "tied" then
    match pc with
    | .tied M => .tied (matMul M (transposeM M))
    | x => x
  else pc.squareElems

/-- `compute_clusters_precision` (pgi_utils.py lines 347-359): recompute
`precisions_cholesky_` from the covariances with `cpc`, then derive
`precisions_` from it. -/
def compute_clusters_precision (cpc : CholFn) (g : GMM) : GMM :=
  let pch := cpc g.covariances_ g.covariance_type
  { g with precisions_cholesky_ := pch,
           precisions_ := derivPrecisions pch g.covariance_type }

/-- `computeCovariance` (pgi_utils.py lines 362-373): derive `covariances_`
from `covariances_cholesky_` with the same per-family rule. -/
def computeCovariance (g : GMM) : GMM :=
  { g with covariances_ := derivPrecisions g.covariances_cholesky_ g.covariance_type }

/-- Stable insertion of index `i` into an index list already sorted by
ascending key `w`; a strict comparison keeps equal keys in original index
order, matching a stable ascending argsort. -/
def insertIdx (w : List ℚ) (i : Nat) : List Nat → List Nat
  | [] => [i]
  | j :: js => if w.getD i 0 < w.getD j 0 then i :: j :: js else j :: insertIdx w i js

/-- Ascending argsort of a key vector (`np.argsort`; numpy's default sort
order among equal keys is unspecified, this model keeps it stable). -/
def argsortAsc (w : List ℚ) : List Nat :=
  (List.range w.length).foldl (fun acc i => insertIdx w i acc) []

/-- Column totals of a matrix-valued weight array (`weights_.sum(axis=0)`),
with the width taken from the first row. -/
def matColSums (W : Mat) : List ℚ := colSum ((W.getD 0 []).length) W

/-- The sort key of `order_clusters_GM_weight`: the weights themselves for a
per-cluster vector, the per-cluster column totals for matrix weights. -/
def weightKey (w : WVal) : List ℚ :=
  match w with
  | .vec v => v
  | .mat W => matColSums W

/-- Reindex a weight array by cluster (`weights_[indx]` for a vector,
`weights_[:, indx]` for a matrix). -/
def WVal.reindex (w : WVal) (indx : List Nat) : WVal :=
  match w with
  | .vec v => .vec (reindexQ v indx)
  | .mat W => .mat (W.map (fun row => reindexQ row indx))

/-- `WeightedGaussianMixture.order_clusters_GM_weight` (pgi_utils.py lines
531-555): compute the descending argsort of the (total) mixing weights,
reindex weights, means and — unless tied — precisions and covariances, then
recompute the precision Cholesky factor from the covariances.  Also returns
the permutation (`outputindex=True`). -/
def order_clusters_GM_weight (cpc : CholFn) (g : GMM) : GMM × List Nat :=
  let indx := (argsortAsc (weightKey g.weights_)).reverse
  let g := { g with weights_ := g.weights_.reindex indx,
                    means_ := reindexRows g.means_ indx }
  let g :=
    if g.covariance_type = "tied" then g
    else { g with precisions_ := g.precisions_.reindex indx,
                  covariances_ := g.covariances_.reindex indx }
  ({ g with precisions_cholesky_ := cpc g.covariances_ g.covariance_type }, indx)

/-! ### Cluster matching (`order_cluster`) -/

/-- An abstract stand-in for `gmm._estimate_log_prob` restricted to a single
sample: `score μ i` is the log-probability of the point `μ` under the fitted
mixture's component `i`.  (`_estimate_log_prob` is inherited from
scikit-learn's `GaussianMixture` and evaluates each sample row independently,
so the matrix `dis` of `order_cluster` has entries `dis[j][i] = score μⱼ i`.) -/
abbrev ScoreFn := List ℚ → Nat → ℚ

/-- Index of the first maximum of `f` over a list (`np.argmax`, which returns
the first occurrence; `0` on the empty list, where numpy would raise). -/
def argmaxIdx (f : List ℚ → ℚ) (l : List (List ℚ)) : Nat :=
  match l with
  | [] => 0
  | x :: xs =>
      let r := argmaxIdx f xs
      if f x < f (xs.getD r x) then r + 1 else 0

/-- The rows of `gmmref.means_` still available for matching
(`gmmref.means_[idx_ref]` for a boolean mask `idx_ref`). -/
def maskedMeans (refMeans : List (List ℚ)) (mask : List Bool) : List (List ℚ) :=
  (refMeans.zip mask).filterMap (fun p => if p.2 then some p.1 else none)

/-- Index of the first row of `l` equal to `μ`
(`np.where(np.all(means == μ, axis=1))[0][0]`; `l.length` when absent, where
numpy would raise an `IndexError`). -/
def indexOfMean (μ : List ℚ) : List (List ℚ) → Nat
  | [] => 0
  | a :: as => if a = μ then 0 else indexOfMean μ as + 1

/-- The matching loop of `order_cluster` (pgi_utils.py lines 312-325), run for
`steps` more fitted components starting at component `i` with availability
mask `mask`: score the still-available reference means under the fitted
mixture, take the first argmax for column `i`, recover that mean's first index
in the full reference mean list (`np.where(np.all(means == μ, axis=1))[0][0]`),
record it and mark it used. -/
def selectFrom (score : ScoreFn) (refMeans : List (List ℚ)) :
    Nat → Nat → List Bool → List Nat
  | 0, _, _ => []
  | steps + 1, i, mask =>
      let remaining := maskedMeans refMeans mask
      let j := argmaxIdx (fun μ => score μ i) remaining
      let μ := remaining.getD j []
      let idref := indexOfMean μ refMeans
      idref :: selectFrom score refMeans steps (i + 1) (mask.set idref false)

/-- `order_cluster` (pgi_utils.py lines 309-344): order the fitted mixture by
descending weight, greedily match each fitted cluster to its
highest-log-probability still-unused reference cluster, reindex the fitted
mixture's means, weights and — unless tied — precisions and covariances by the
resulting assignment, and recompute the precision Cholesky factor.  The
reference mixture is threaded through unchanged (the source only reads
`gmmref`).  Returns ((fitted mixture, reference mixture), assignment). -/
def order_cluster (cpc : CholFn) (score : ScoreFn) (g r : GMM) :
    (GMM × GMM) × List Nat :=
  let g := (order_clusters_GM_weight cpc g).1
  let indx := selectFrom score r.means_ g.n_components 0
      (List.replicate r.means_.length true)
  let g := { g with means_ := reindexRows g.means_ indx }
  let g := { g with weights_ := g.weights_.reindex indx }
  let g :=
    if g.covariance_type = "tied" then g
    else { g with precisions_ := g.precisions_.reindex indx,
                  covariances_ := g.covariances_.reindex indx }
  (({ g with precisions_cholesky_ := cpc g.covariances_ g.covariance_type }, r), indx)

/-! ### Prior blending (`update_gmm_with_priors`) -/

/-- Aggregation of a weight array to one scalar per cluster
(pgi_utils.py lines 395-407): a vector is used as is; matrix weights are
volume-weighted column sums normalized by the volume-weighted grand total
(`(np.c_[vol] * weights_).sum(axis=0) / (np.c_[vol] * weights_).sum()`). -/
def aggWeights (vol : List ℚ) (w : WVal) : List ℚ :=
  match w with
  | .vec v => v
  | .mat W =>
      let VW := List.zipWith (fun v row => row.map (fun x => v * x)) vol W
      let total := (VW.map List.sum).sum
      (matColSums VW).map (fun x => x / total)

/-- Elementwise product of two weight arrays (`zeta * gmmref.weights_`); a
vector against a matrix broadcasts across rows as in numpy. -/
def WVal.hadamard (a b : WVal) : WVal :=
  match a, b with
  | .vec x, .vec y => .vec (List.zipWith (· * ·) x y)
  | .mat X, .mat Y => .mat (List.zipWith (fun rx ry => List.zipWith (· * ·) rx ry) X Y)
  | .vec x, .mat Y => .mat (Y.map (fun ry => List.zipWith (· * ·) x ry))
  | .mat X, .vec y => .mat (X.map (fun rx => List.zipWith (· * ·) rx y))

/-- The mixing-weight update of `update_gmm_with_priors` (pgi_utils.py lines
437-440): `weights_ = ((weights_ + zr).T * (1 / (1 + sum(zr.T, axis=0)))).T`
with `zr = zeta * gmmref.weights_`.  When `zr` is a vector the normalizer is
the scalar `1 + Σ zr`; when `zr` is a matrix it is per-sample
(`1 + Σ_k zr[i, k]` for row `i`), and a vector `weights_` broadcast against a
matrix `zr` produces a matrix.  `weightsBlendZr` is the combination given the
already-computed `zr`; `weightsBlend` composes it with `zr = zeta * refw`. -/
def weightsBlendZr (gw zr : WVal) : WVal :=
  match gw, zr with
  | .vec a, .vec b =>
      let s := b.sum
      .vec ((vecAdd a b).map (fun x => x / (1 + s)))
  | .mat A, .vec b =>
      let s := b.sum
      .mat (A.map (fun row => (vecAdd row b).map (fun x => x / (1 + s))))
  | .mat A, .mat B =>
      .mat (List.zipWith (fun row brow =>
        (vecAdd row brow).map (fun x => x / (1 + brow.sum))) A B)
  | .vec a, .mat B =>
      .mat (B.map (fun brow =>
        (vecAdd a brow).map (fun x => x / (1 + brow.sum))))

def weightsBlend (gw : WVal) (zeta refw : WVal) : WVal :=
  weightsBlendZr gw (zeta.hadamard refw)

/-- The mean-shift correction of the `"full"` prior mode (pgi_utils.py lines
411-413), as a per-feature vector:
`smu = (kappa_k * w_k) * (refMean_k - mean_k)² / (kappa_k + w_k) / (w_k + rw_k * nu_k)`. -/
def smuVec (wk rwk nuk : ℚ) (m rm kk : List ℚ) : List ℚ :=
  List.zipWith (fun c (ab : ℚ × ℚ) =>
      (c * wk * (ab.2 - ab.1) * (ab.2 - ab.1) / (c + wk)) * (1 / (wk + rwk * nuk)))
    kk (m.zip rm)

/-- The per-cluster mean blend of `update_gmm_with_priors` (pgi_utils.py lines
415-417), elementwise over features because `kappa[k]` is a feature vector:
`mean = (w_k * mean + rw_k * kappa * refMean) / (w_k + rw_k * kappa)`. -/
def blendMean (wk rwk : ℚ) (m rm kk : List ℚ) : List ℚ :=
  List.zipWith (fun (ab : ℚ × ℚ) c =>
      (1 / (wk + rwk * c)) * (wk * ab.1 + rwk * c * ab.2)) (m.zip rm) kk

/-- Add a feature vector to one covariance block, following numpy broadcasting
in `covariances_[k] += smu`: a full (d, d) block adds `smu` to every row, a
diagonal block adds elementwise, a spherical scalar adds `smu`'s single entry
(numpy accepts that assignment only when the vector has size one). -/
def addSmuFull (M : Mat) (smu : List ℚ) : Mat := M.map (fun row => vecAdd row smu)

/-- Blend cluster `k` of covariance-family array `A` with array `B`:
`A[k] = (1 / (wk + rwk * c)) * (wk * A[k] + rwk * c * B[k])`, optionally adding
the mean-shift vector `smu` afterwards (the `"full"` prior mode).  `tied`
arrays and mismatched constructors are untouched (the source guards the loop
with `covariance_type == "tied"`). -/
def blendCovAt (A B : CovArr) (k : Nat) (wk rwk c : ℚ) (smu : Option (List ℚ)) :
    CovArr :=
  let f : ℚ → ℚ → ℚ := fun a b => (1 / (wk + rwk * c)) * (wk * a + rwk * c * b)
  match A, B with
  | .full la, .full lb =>
      let M := List.zipWith (fun ra rb => List.zipWith f ra rb) (la.getD k []) (lb.getD k [])
      let M := match smu with | none => M | some s => addSmuFull M s
      .full (la.set k M)
  | .diag ra, .diag rb =>
      let v := List.zipWith f (ra.getD k []) (rb.getD k [])
      let v := match smu with | none => v | some s => vecAdd v s
      .diag (ra.set k v)
  | .spherical va, .spherical vb =>
      let x := f (va.getD k 0) (vb.getD k 0)
      let x := match smu with | none => x | some s => x + s.getD 0 0
      .spherical (va.set k x)
  | a, _ => a

/-- One iteration of the per-cluster loop of `update_gmm_with_priors`
(pgi_utils.py lines 409-435) on cluster `k`: compute `smu` when
`prior_type == "full"`, blend the mean, and — unless the reference mixture is
tied — blend either the covariance (with `smu` in full-prior mode) or the
precision of cluster `k`. -/
def updStep (w rw : List ℚ) (kappa : List (List ℚ)) (nu : List ℚ) (r : GMM)
    (update_covariances : Bool) (prior_type : String) (g : GMM) (k : Nat) : GMM :=
  let wk := w.getD k 0
  let rwk := rw.getD k 0
  let nuk := nu.getD k 0
  let kk := kappa.getD k []
  let oldm := g.means_.getD k []
  let rm := r.means_.getD k []
  let smu := smuVec wk rwk nuk oldm rm kk
  let g := { g with means_ := g.means_.set k (blendMean wk rwk oldm rm kk) }
  if r.covariance_type = "tied" then g
  else if update_covariances then
    { g with covariances_ := (blendCovAt g.covariances_ r.covariances_ k wk rwk nuk
        (if prior_type = "full" then some smu else none)) }
  else
    { g with precisions_ := blendCovAt g.precisions_ r.precisions_ k wk rwk nuk none }

/-- The tied-covariance aggregate blend (pgi_utils.py lines 444-446 and
452-454): `(1 / (1 + s)) * (A + s * B)` on the single shared matrix, with
`s = Σ (ref_weights_ * nu)`.  Non-tied constructors are untouched. -/
def tiedBlend (A B : CovArr) (s : ℚ) : CovArr :=
  match A, B with
  | .tied MA, .tied MB => .tied (matSMul (1 / (1 + s)) (matAdd MA (matSMul s MB)))
  | a, _ => a

/-- The per-cluster blending loop of `update_gmm_with_priors` (pgi_utils.py
lines 409-435): `updStep` applied for `k = 0 .. n_components - 1`. -/
def update_loop (w rw : List ℚ) (kappa : List (List ℚ)) (nu : List ℚ) (r : GMM)
    (update_covariances : Bool) (prior_type : String) (g : GMM) : GMM :=
  (List.range g.n_components).foldl
    (updStep w rw kappa nu r update_covariances prior_type) g

/-- The closing section of `update_gmm_with_priors` (pgi_utils.py lines
442-474): the tied aggregate blend, and the Cholesky round trips that keep
covariances and precisions mutually consistent in whichever domain was not
directly updated. -/
def update_chol_tail (cpc : CholFn) (rw nu : List ℚ) (r : GMM)
    (update_covariances : Bool) (g : GMM) : GMM :=
  if r.covariance_type = "tied" then
    let s := (List.zipWith (· * ·) rw nu).sum
    if update_covariances then
      let g := { g with covariances_ := tiedBlend g.covariances_ r.covariances_ s }
      let g := { g with precisions_cholesky_ := cpc g.covariances_ g.covariance_type }
      compute_clusters_precision cpc g
    else
      let g := { g with precisions_ := tiedBlend g.precisions_ r.precisions_ s }
      let g := { g with covariances_cholesky_ := cpc g.precisions_ g.covariance_type }
      let g := computeCovariance g
      { g with precisions_cholesky_ := cpc g.covariances_ g.covariance_type }
  else if update_covariances then
    let g := { g with precisions_cholesky_ := cpc g.covariances_ g.covariance_type }
    compute_clusters_precision cpc g
  else
    let g := { g with covariances_cholesky_ := cpc g.precisions_ g.covariance_type }
    let g := computeCovariance g
    { g with precisions_cholesky_ := cpc g.covariances_ g.covariance_type }

/-- `update_gmm_with_priors` (pgi_utils.py lines 376-479): recompute the
fitted mixture's precisions, match it onto the reference mixture's labeling,
aggregate the weight arrays to per-cluster scalars, run the per-cluster
mean/covariance/precision blends, blend the mixing weights, and finally handle
the tied aggregate blend and the Cholesky round trips that keep covariances
and precisions mutually consistent.  The reference mixture is threaded through
unchanged (the source only reads `gmmref`).  Returns the pair
(fitted mixture, reference mixture). -/
def update_gmm_with_priors (cpc : CholFn) (score : ScoreFn) (g r : GMM)
    (zeta : WVal) (nu : List ℚ) (kappa : List (List ℚ))
    (update_covariances : Bool) (prior_type : String) : GMM × GMM :=
  let g := compute_clusters_precision cpc g
  let gr := (order_cluster cpc score g r).1
  let g := gr.1
  let r := gr.2
  let w := aggWeights g.vol g.weights_
  let rw := aggWeights r.vol r.weights_
  let g := update_loop w rw kappa nu r update_covariances prior_type g
  let g := { g with weights_ := weightsBlend g.weights_ zeta r.weights_ }
  (update_chol_tail cpc rw nu r update_covariances g, r)

/-! ### The weighted M-step -/

/-- An abstract stand-in for scikit-learn's
`_estimate_gaussian_covariances_{full,tied,diag,spherical}` family (imported
from `sklearn.mixture._gaussian_mixture`, an external collaborator):
arguments are (resp, X, nk, means, reg_covar). -/
abbrev CovEstFn := List (List ℚ) → List (List ℚ) → List ℚ → List (List ℚ) → ℚ → CovArr

/-- `WeightedGaussianMixture._estimate_gaussian_parameters` (pgi_utils.py
lines 705-736): volume-weight the responsibilities, take per-cluster weighted
counts with an epsilon floor (`eps10` models `10 * np.finfo(dtype).eps`),
weighted means, and the per-family covariance estimate.  Returns
(nk, means, covariances). -/
def estimate_gaussian_parameters (covEst : CovEstFn) (g : GMM)
    (X resp : List (List ℚ)) (reg_covar eps10 : ℚ) :
    List ℚ × List (List ℚ) × CovArr :=
  let respVol := List.zipWith (fun v row => row.map (fun x => v * x)) g.vol resp
  let nk := (colSum g.n_components respVol).map (fun x => x + eps10)
  let d := (X.getD 0 []).length
  let means := (List.range g.n_components).map (fun k =>
    let col := respVol.map (fun row => row.getD k 0)
    (colSum d (List.zipWith (fun c xrow => xrow.map (fun x => c * x)) col X)).map
      (fun x => x / nk.getD k 0))
  (nk, means, covEst respVol X nk means reg_covar)

/-- `WeightedGaussianMixture._m_step` (pgi_utils.py lines 683-703): estimate
the weighted Gaussian parameters, divide the weighted counts by
`n_samples * mean(vol)`, recompute the precision Cholesky factor, and assign
the mixing weights only when `weights_` is a per-cluster vector (matrix-valued
weights are left untouched by the M-step).  `resp` is the exponential
`np.exp(log_resp)` of the log responsibilities. -/
def m_step (cpc : CholFn) (covEst : CovEstFn) (g : GMM)
    (X resp : List (List ℚ)) (reg_covar eps10 : ℚ) : GMM :=
  let n_samples := X.length
  let Volume := g.vol.sum / (g.vol.length : ℚ)
  let p := estimate_gaussian_parameters covEst g X resp reg_covar eps10
  let weights := p.1.map (fun x => x / ((n_samples : ℚ) * Volume))
  let g := { g with means_ := p.2.1, covariances_ := p.2.2 }
  let g := { g with precisions_cholesky_ := cpc g.covariances_ g.covariance_type }
  match g.weights_ with
  | .vec _ => { g with weights_ := .vec weights }
  | .mat _ => g

/-! ### The fit driver's convergence control -/

/-- Absolute value of a rational (Python's `abs`), kept as an explicit
conditional so concrete runs reduce in the kernel. -/
def ratAbs (x : ℚ) : ℚ := if x < 0 then -x else x

/-- An extended lower bound: `none` models the `-np.infty` initialization of
`lower_bound_` and `max_lower_bound`, `some q` a finite value. -/
abbrev Lower := Option ℚ

/-- Strict comparison on extended lower bounds with `none` as `-np.infty`
(float semantics: `-inf < x` for finite `x`, `-inf < -inf` is false). -/
def lowerLT : Lower → Lower → Bool
  | none, none => false
  | none, some _ => true
  | some _, none => false
  | some a, some b => a < b

/-- The convergence test of one EM iteration of `GaussianMixtureWithPrior.fit`
(pgi_utils.py lines 867, 898-905): with the previous lower bound `prev`
(`none` models the `-np.infty` initialization, whose change is infinite and
never below tolerance) and the freshly computed bound `cur`, the trial
converges when `|cur - prev| < tol`. -/
def convCheck (prev : Lower) (cur tol : ℚ) : Bool :=
  match prev with
  | none => false
  | some p => ratAbs (cur - p) < tol

/-- The iteration loop of one trial: `lb n` abstracts the lower bound computed
by the E-step/M-step/prior-update of iteration `n`; the loop stops early on
convergence.  Returns (converged?, final lower bound). -/
def trialGo (lb : Nat → ℚ) (tol : ℚ) : List Nat → Lower → Bool × Lower
  | [], prev => (false, prev)
  | n :: ns, prev =>
      let cur := lb n
      if convCheck prev cur tol then (true, some cur) else trialGo lb tol ns (some cur)

/-- One trial of `fit`: iterate at most `max_iter` times starting from a
`-np.infty` lower bound. -/
def trialRun (lb : Nat → ℚ) (tol : ℚ) (max_iter : Nat) : Bool × Lower :=
  trialGo lb tol (List.range max_iter) none

/-- The outcome of the multi-trial control flow of
`GaussianMixtureWithPrior.fit`. -/
structure FitCtl where
  converged : Bool
  warned : Bool
  maxLower : Lower
  best : Option Nat
deriving DecidableEq, Repr

/-- The trial/convergence/warning control flow of
`GaussianMixtureWithPrior.fit` (pgi_utils.py lines 853-924), with the
numerical content of trial `t`'s iteration `n` abstracted as `lb t n`:
`converged_` is set to `False` once before all trials and turns (and stays)
`True` when any trial converges; the best trial is the one with the strictly
largest final lower bound; the single `ConvergenceWarning` is emitted after
all trials only when `converged_` is still `False`, and the fit then proceeds
to restore the best parameters regardless. -/
def fitTrialStep (lb : Nat → Nat → ℚ) (tol : ℚ) (max_iter : Nat)
    (st : Bool × Lower × Option Nat) (t : Nat) : Bool × Lower × Option Nat :=
  let tr := trialRun (lb t) tol max_iter
  let conv := st.1 || tr.1
  if lowerLT st.2.1 tr.2 then (conv, tr.2, some t) else (conv, st.2.1, st.2.2)

/-- The fold of `fitTrialStep` over the `n_init` trials, plus the final
warning decision of `fit`. -/
def fit_control (lb : Nat → Nat → ℚ) (n_init max_iter : Nat) (tol : ℚ) : FitCtl :=
  let s := (List.range n_init).foldl (fitTrialStep lb tol max_iter) (false, none, none)
  { converged := s.1, warned := !s.1, maxLower := s.2.1, best := s.2.2 }

/-! ### Helper lemmas -/

lemma oneHotLogRow_getD (K c j : Nat) (hj : j < K) :
    (oneHotLogRow K c).getD j ⊥ = if j = c then (0 : WithBot ℚ) else ⊥ := by
  simp [oneHotLogRow, List.getD_eq_getElem?_getD, List.getElem?_range hj]

lemma force_log_resp_of_notin (K : Nat) (fm : List (Nat × Nat))
    (lr : List (List (WithBot ℚ))) (i : Nat) (h : ∀ p ∈ fm, p.1 ≠ i) :
    (force_log_resp K fm lr).getD i [] = lr.getD i [] := by
  induction fm generalizing lr with
  | nil => rfl
  | cons a rest ih =>
      have hai : a.1 ≠ i := h a (by simp)
      have hrest : ∀ p ∈ rest, p.1 ≠ i := fun p hp => h p (by simp [hp])
      show (force_log_resp K rest (lr.set a.1 (oneHotLogRow K a.2))).getD i []
          = lr.getD i []
      rw [ih _ hrest]
      simp [List.getD_eq_getElem?_getD, List.getElem?_set_ne hai]

lemma force_log_resp_row (K : Nat) :
    ∀ (fm : List (Nat × Nat)) (lr : List (List (WithBot ℚ))) (i c : Nat),
      fm.Pairwise (fun p q => p.1 ≠ q.1) → (i, c) ∈ fm → i < lr.length →
      (force_log_resp K fm lr).getD i [] = oneHotLogRow K c := by
  intro fm
  induction fm with
  | nil => intro lr i c _ hmem _; cases hmem
  | cons a rest ih =>
      intro lr i c hdist hmem hi
      rcases List.mem_cons.mp hmem with h1 | h2
      · have ha1 : a.1 = i := by rw [← h1]
        have ha2 : a.2 = c := by rw [← h1]
        have hne : ∀ p ∈ rest, p.1 ≠ i := by
          intro p hp
          have := (List.pairwise_cons.mp hdist).1 p hp
          rw [ha1] at this
          exact fun hpi => this hpi.symm
        show (force_log_resp K rest (lr.set a.1 (oneHotLogRow K a.2))).getD i []
            = oneHotLogRow K c
        rw [force_log_resp_of_notin _ _ _ _ hne, ha1, ha2]
        simp [List.getD_eq_getElem?_getD, List.getElem?_set_self hi]
      · exact ih _ i c (List.Pairwise.of_cons hdist) h2 (by simpa using hi)

/-! ### C1 — fixed-membership constraints force one-hot responsibilities -/

/-- C1: in `GaussianMixtureWithPrior.fit`, whenever `fixed_membership` is
supplied (a list of pairwise-distinct sample indices, each with a valid
cluster index), the post-E-step forcing block makes the responsibilities at
the constrained indices exactly one-hot before the M-step runs: row `i` of the
forced log-responsibilities is `0` at the constrained cluster `c` and `-inf`
(`⊥`) everywhere else, so its exponential — any function `E` with `E 0 = 1`
and `E ⊥ = 0` — is `1` at `c` and `0` at every other cluster. -/
theorem fixedMembership_onehot (E : WithBot ℚ → ℚ) (hE0 : E 0 = 1) (hEbot : E ⊥ = 0)
    (fm : List (Nat × Nat)) (logResp : List (List (WithBot ℚ))) (K i c j : Nat)
    (hdist : fm.Pairwise (fun p q => p.1 ≠ q.1))
    (hmem : (i, c) ∈ fm) (hi : i < logResp.length) (_hc : c < K) (hj : j < K) :
    ((force_log_resp K fm logResp).getD i []).getD j ⊥
        = (if j = c then (0 : WithBot ℚ) else ⊥)
      ∧ E (((force_log_resp K fm logResp).getD i []).getD j ⊥)
        = (if j = c then (1 : ℚ) else 0) := by
  have hrow := force_log_resp_row K fm logResp i c hdist hmem hi
  refine ⟨hrow ▸ oneHotLogRow_getD K c j hj, ?_⟩
  rw [hrow, oneHotLogRow_getD K c j hj]
  by_cases hjc : j = c <;> simp [hjc, hE0, hEbot]

/-- A concrete exponential on the two values the forcing produces. -/
def expAt01 : WithBot ℚ → ℚ := fun x => if x = 0 then 1 else 0

/-- Witness for C1 at a concrete input: two samples, two clusters, sample 0
constrained to cluster 1; its responsibility at cluster 0 is 0. -/
theorem fixedMembership_onehot_witness :
    ((force_log_resp 2 [(0, 1)] [[⊥, ⊥], [⊥, ⊥]]).getD 0 []).getD 0 ⊥
        = (if 0 = 1 then (0 : WithBot ℚ) else ⊥)
      ∧ expAt01 (((force_log_resp 2 [(0, 1)] [[⊥, ⊥], [⊥, ⊥]]).getD 0 []).getD 0 ⊥)
        = (if 0 = 1 then (1 : ℚ) else 0) :=
  fixedMembership_onehot expAt01 (by decide) (by decide) [(0, 1)] [[⊥, ⊥], [⊥, ⊥]]
    2 0 1 0 (by decide) (by decide) (by decide) (by decide) (by decide)

/-! ### C7 — the convergence warning is sticky across trials -/

lemma fit_fold_converged (lb : Nat → Nat → ℚ) (tol : ℚ) (max_iter : Nat)
    (l : List Nat) (st : Bool × Lower × Option Nat) :
    (l.foldl (fitTrialStep lb tol max_iter) st).1
      = (st.1 || l.any (fun t => (trialRun (lb t) tol max_iter).1)) := by
  induction l generalizing st with
  | nil => simp
  | cons a rest ih =>
      simp only [List.foldl_cons, List.any_cons]
      by_cases h : lowerLT st.2.1 (trialRun (lb a) tol max_iter).2 = true <;>
        simp [fitTrialStep, h, ih, Bool.or_assoc]

/-- C7 (amended): in `GaussianMixtureWithPrior.fit`, the `ConvergenceWarning`
is emitted (once, after all trials, and non-fatally) if and only if NO trial
converged: the `converged_` flag is set once before all trials and is sticky,
so a trial that exhausts `max_iter` without meeting the tolerance produces no
warning whenever any other trial converged. -/
theorem fit_warning_iff_no_trial_converged (lb : Nat → Nat → ℚ)
    (n_init max_iter : Nat) (tol : ℚ) :
    (fit_control lb n_init max_iter tol).warned = true ↔
      ∀ t < n_init, (trialRun (lb t) tol max_iter).1 = false := by
  have h := fit_fold_converged lb tol max_iter (List.range n_init) (false, none, none)
  simp only [fit_control, h, Bool.false_or, Bool.not_eq_true']
  rw [List.any_eq_false]
  constructor
  · intro hall t ht
    simpa using hall t (List.mem_range.mpr ht)
  · intro hall t ht
    simp [hall t (List.mem_range.mp ht)]

/-- Lower-bound schedule where trial 0 converges immediately and every other
trial drifts by exactly the tolerance each iteration, never converging. -/
def lbSticky : Nat → Nat → ℚ := fun t n => if t = 0 then 0 else (n : ℚ)

/-- Counterexample to C7 as stated: with two trials, tolerance 1 and three
iterations, trial 1 exhausts `max_iter` without its lower-bound change
dropping below tolerance, yet no `ConvergenceWarning` is emitted because
trial 0 converged and the `converged_` flag is sticky. -/
theorem fit_warning_sticky_counterexample :
    (trialRun (lbSticky 1) 1 3).1 = false
      ∧ (fit_control lbSticky 2 3 1).warned = false := by
  constructor
  · norm_num [trialRun, trialGo, lbSticky, convCheck, ratAbs, List.range_succ]
  · norm_num [fit_control, fitTrialStep, trialRun, trialGo, lbSticky, convCheck,
      ratAbs, lowerLT, List.range_succ]

/-! ### C8 — the Zero-skip in `compute_J` is numerically a no-op -/

/-- C8: in `compute_J`, for a receiver whose right-hand-side derivative and
field derivative are both the `Zero` sentinel, the accumulated sensitivity
block equals the block computed from the (negated, transposed) system-matrix
derivative alone, and also equals the unconditional accumulation in which the
`Zero` structures are added as additive zeros: the skip is numerically a
no-op.  (Reason `spec-modelled`: the `Zero` sentinel class itself lives in
`SimPEG.utils`, outside `src/`.) -/
theorem compute_J_zero_skip_noop (dA dRHS df : SimVal)
    (h1 : dRHS = SimVal.zero) (h2 : df = SimVal.zero) :
    compute_J_block dA dRHS df = SimVal.neg dA
      ∧ compute_J_block dA dRHS df = compute_J_block_noskip dA dRHS df := by
  subst h1; subst h2
  cases dA <;> simp [compute_J_block, compute_J_block_noskip, SimVal.add,
    SimVal.isZero, SimVal.neg]

/-- Witness for C8 at a concrete input. -/
theorem compute_J_zero_skip_noop_witness :
    compute_J_block (SimVal.arr [1, 2]) SimVal.zero SimVal.zero
        = SimVal.neg (SimVal.arr [1, 2])
      ∧ compute_J_block (SimVal.arr [1, 2]) SimVal.zero SimVal.zero
        = compute_J_block_noskip (SimVal.arr [1, 2]) SimVal.zero SimVal.zero :=
  compute_J_zero_skip_noop (SimVal.arr [1, 2]) SimVal.zero SimVal.zero rfl rfl

/-! ### C9 — `update_gmm_with_priors` never modifies the reference mixture -/

/-- C9: `update_gmm_with_priors`, including the `order_cluster` matching it
performs, returns the reference mixture `gmmref` with every attribute
(weights, means, covariances, precisions, Cholesky factors) unchanged: in the
embedding every assignment of the source targets the fitted mixture, so the
threaded reference state is the identity.  (In the source the reindexing steps
also rebind the fitted mixture's arrays to fresh fancy-indexing copies before
any in-place element write, so no write can reach `gmmref` through aliasing.) -/
theorem update_priors_preserves_gmmref (cpc : CholFn) (score : ScoreFn) (g r : GMM)
    (zeta : WVal) (nu : List ℚ) (kappa : List (List ℚ))
    (update_covariances : Bool) (prior_type : String) :
    (order_cluster cpc score g r).1.2 = r
      ∧ (update_gmm_with_priors cpc score g r zeta nu kappa
          update_covariances prior_type).2 = r :=
  ⟨rfl, rfl⟩

/-! ### C10 — the `gtgdiag` cache makes later calls independent of `m` and `W` -/

/-- C10: once `dask_getJtJdiag` has filled the `gtgdiag` cache, every
subsequent call returns the same cached diagonal unchanged and keeps the cache
intact, regardless of the model `m` or weight matrix `W` passed later; and
starting from an empty cache, a second call after the cache-filling call
returns exactly the first call's diagonal whatever `m` and `W` it receives. -/
theorem getJtJdiag_cache_stable (s : SimState) (d m m2 : List ℚ)
    (W W2 : Option (List ℚ)) (h : s.gtgdiag = some d) :
    (dask_getJtJdiag s m W).1 = d
      ∧ (dask_getJtJdiag s m W).2.gtgdiag = some d
      ∧ ∀ s0 : SimState, s0.gtgdiag = none →
          (dask_getJtJdiag (dask_getJtJdiag s0 m W).2 m2 W2).1
            = (dask_getJtJdiag s0 m W).1 := by
  refine ⟨by simp [dask_getJtJdiag, h], by simp [dask_getJtJdiag, h], ?_⟩
  intro s0 h0
  cases W <;> simp [dask_getJtJdiag, h0]

/-- Witness for C10 at a concrete input: a cached state returns its cache. -/
theorem getJtJdiag_cache_stable_witness :
    (dask_getJtJdiag ⟨[0], [[1]], some [7]⟩ [5] (some [2])).1 = [7]
      ∧ (dask_getJtJdiag ⟨[0], [[1]], some [7]⟩ [5] (some [2])).2.gtgdiag = some [7]
      ∧ ∀ s0 : SimState, s0.gtgdiag = none →
          (dask_getJtJdiag (dask_getJtJdiag s0 [5] (some [2])).2 [6] (some [3])).1
            = (dask_getJtJdiag s0 [5] (some [2])).1 :=
  getJtJdiag_cache_stable ⟨[0], [[1]], some [7]⟩ [7] [5] [6] (some [2]) (some [3]) rfl

/-! ### C2 — greedy matching uses each reference cluster at most once -/

lemma argmaxIdx_lt_length (f : List ℚ → ℚ) :
    ∀ (l : List (List ℚ)), l ≠ [] → argmaxIdx f l < l.length := by
  intro l
  induction l with
  | nil => intro h; exact absurd rfl h
  | cons x xs ih =>
      intro _
      simp only [argmaxIdx]
      by_cases hc : f x < f (xs.getD (argmaxIdx f xs) x)
      · rw [if_pos hc]
        cases xs with
        | nil =>
            simp only [argmaxIdx, List.getD] at hc
            exact absurd hc (lt_irrefl _)
        | cons y ys =>
            have := ih (by simp)
            simp only [List.length_cons] at this ⊢
            omega
      · rw [if_neg hc]; simp

lemma maskedMeans_cons (a : List ℚ) (as : List (List ℚ)) (b : Bool)
    (bs : List Bool) :
    maskedMeans (a :: as) (b :: bs)
      = (if b then [a] else []) ++ maskedMeans as bs := by
  cases b <;> simp [maskedMeans, List.zip_cons_cons, List.filterMap_cons]

lemma maskedMeans_length :
    ∀ (refMeans : List (List ℚ)) (mask : List Bool),
      mask.length = refMeans.length →
      (maskedMeans refMeans mask).length = mask.count true := by
  intro refMeans
  induction refMeans with
  | nil =>
      intro mask h
      have : mask = [] := List.eq_nil_of_length_eq_zero (by simpa using h)
      subst this; rfl
  | cons a as ih =>
      intro mask h
      cases mask with
      | nil => simp at h
      | cons b bs =>
          have hlen : bs.length = as.length := by simpa using h
          have ihr := ih bs hlen
          cases b <;> simp [maskedMeans_cons, List.count_cons, ihr]

lemma mem_maskedMeans {refMeans : List (List ℚ)} {mask : List Bool}
    {μ : List ℚ} (h : μ ∈ maskedMeans refMeans mask) : μ ∈ refMeans := by
  unfold maskedMeans at h
  obtain ⟨p, hp, hpe⟩ := List.mem_filterMap.mp h
  by_cases h2 : p.2 <;> simp [h2] at hpe
  exact hpe ▸ (List.of_mem_zip hp).1

lemma maskedMeans_indexOf_true :
    ∀ (refMeans : List (List ℚ)) (mask : List Bool) (μ : List ℚ),
      refMeans.Nodup → mask.length = refMeans.length →
      μ ∈ maskedMeans refMeans mask →
      mask.getD (indexOfMean μ refMeans) false = true := by
  intro refMeans
  induction refMeans with
  | nil =>
      intro mask μ _ h hm
      have : mask = [] := List.eq_nil_of_length_eq_zero (by simpa using h)
      subst this; cases hm
  | cons a as ih =>
      intro mask μ hnd hlen hm
      cases mask with
      | nil => simp at hlen
      | cons b bs =>
          have hbs : bs.length = as.length := by simpa using hlen
          by_cases hμa : a = μ
          · subst hμa
            have hb : b = true := by
              by_contra hbf
              have hb' : b = false := by
                cases b
                · rfl
                · exact absurd rfl hbf
              subst hb'
              have : a ∈ maskedMeans as bs := by
                simpa [maskedMeans_cons] using hm
              exact (List.nodup_cons.mp hnd).1 (mem_maskedMeans this)
            subst hb
            simp [indexOfMean]
          · have hm2 : μ ∈ maskedMeans as bs := by
              cases b with
              | true =>
                  have : μ ∈ a :: maskedMeans as bs := by
                    simpa [maskedMeans_cons] using hm
                  rcases List.mem_cons.mp this with h1 | h1
                  · exact absurd h1.symm hμa
                  · exact h1
              | false => simpa [maskedMeans_cons] using hm
            have hrec := ih bs μ (List.nodup_cons.mp hnd).2 hbs hm2
            simpa [indexOfMean, hμa, List.getD] using hrec

lemma count_true_set_false :
    ∀ (mask : List Bool) (i : Nat), mask.getD i false = true →
      (mask.set i false).count true + 1 = mask.count true := by
  intro mask
  induction mask with
  | nil => intro i h; simp [List.getD] at h
  | cons b bs ih =>
      intro i h
      cases i with
      | zero =>
          have hb : b = true := by simpa [List.getD] using h
          subst hb
          simp [List.count_cons]
      | succ n =>
          have h2 := ih n (by simpa [List.getD] using h)
          simp only [List.set, List.count_cons]
          omega

lemma indexOfMean_lt_length {μ : List ℚ} :
    ∀ {l : List (List ℚ)}, μ ∈ l → indexOfMean μ l < l.length := by
  intro l
  induction l with
  | nil => intro h; cases h
  | cons a as ih =>
      intro h
      by_cases ha : a = μ
      · simp [indexOfMean, ha]
      · rcases List.mem_cons.mp h with h1 | h1
        · exact absurd h1.symm ha
        · simp only [indexOfMean, if_neg ha, List.length_cons]
          exact Nat.succ_lt_succ (ih h1)

lemma selectFrom_invariant (score : ScoreFn) (refMeans : List (List ℚ))
    (hnd : refMeans.Nodup) :
    ∀ (steps i : Nat) (mask : List Bool), mask.length = refMeans.length →
      steps ≤ mask.count true →
      (∀ x ∈ selectFrom score refMeans steps i mask, mask.getD x false = true)
        ∧ (selectFrom score refMeans steps i mask).Nodup
        ∧ (selectFrom score refMeans steps i mask).length = steps := by
  intro steps
  induction steps with
  | zero =>
      intro i mask _ _
      refine ⟨?_, ?_, ?_⟩ <;> simp [selectFrom]
  | succ st ih =>
      intro i mask hlen hcnt
      have hne : maskedMeans refMeans mask ≠ [] := by
        intro hemp
        have hc := maskedMeans_length refMeans mask hlen
        rw [hemp] at hc
        simp only [List.length_nil] at hc
        omega
      have hj : argmaxIdx (fun μ => score μ i) (maskedMeans refMeans mask)
          < (maskedMeans refMeans mask).length := argmaxIdx_lt_length _ _ hne
      have hμmem : (maskedMeans refMeans mask).getD
          (argmaxIdx (fun μ => score μ i) (maskedMeans refMeans mask)) []
          ∈ maskedMeans refMeans mask := by
        rw [List.getD_eq_getElem?_getD, List.getElem?_eq_getElem hj]
        exact List.getElem_mem hj
      have hidx_true : mask.getD
          (indexOfMean ((maskedMeans refMeans mask).getD
            (argmaxIdx (fun μ => score μ i) (maskedMeans refMeans mask)) []) refMeans)
          false = true :=
        maskedMeans_indexOf_true refMeans mask _ hnd hlen hμmem
      have hμref := mem_maskedMeans hμmem
      have hidlt : indexOfMean ((maskedMeans refMeans mask).getD
          (argmaxIdx (fun μ => score μ i) (maskedMeans refMeans mask)) []) refMeans
          < refMeans.length := indexOfMean_lt_length hμref
      have hidmask : indexOfMean ((maskedMeans refMeans mask).getD
          (argmaxIdx (fun μ => score μ i) (maskedMeans refMeans mask)) []) refMeans
          < mask.length := by omega
      have hmask2 : (mask.set (indexOfMean ((maskedMeans refMeans mask).getD
          (argmaxIdx (fun μ => score μ i) (maskedMeans refMeans mask)) []) refMeans)
          false).length = refMeans.length := by simpa using hlen
      have hcnt2 : st ≤ (mask.set (indexOfMean ((maskedMeans refMeans mask).getD
          (argmaxIdx (fun μ => score μ i) (maskedMeans refMeans mask)) []) refMeans)
          false).count true := by
        have := count_true_set_false mask _ hidx_true
        omega
      obtain ⟨h1, h2, h3⟩ := ih (i + 1) _ hmask2 hcnt2
      have hset_self : (mask.set (indexOfMean ((maskedMeans refMeans mask).getD
          (argmaxIdx (fun μ => score μ i) (maskedMeans refMeans mask)) []) refMeans)
          false).getD (indexOfMean ((maskedMeans refMeans mask).getD
          (argmaxIdx (fun μ => score μ i) (maskedMeans refMeans mask)) []) refMeans)
          false = false := by
        rw [List.getD_eq_getElem?_getD, List.getElem?_set_self hidmask]
        rfl
      refine ⟨?_, ?_, ?_⟩
      · intro x hx
        rw [selectFrom] at hx
        rcases List.mem_cons.mp hx with rfl | hx2
        · exact hidx_true
        · have hxt := h1 x hx2
          by_cases hxe : x = indexOfMean ((maskedMeans refMeans mask).getD
              (argmaxIdx (fun μ => score μ i) (maskedMeans refMeans mask)) []) refMeans
          · rw [hxe, hset_self] at hxt
            cases hxt
          · rwa [List.getD_eq_getElem?_getD,
              List.getElem?_set_ne (fun h => hxe h.symm),
              ← List.getD_eq_getElem?_getD] at hxt
      · rw [selectFrom]
        refine List.nodup_cons.mpr ⟨?_, h2⟩
        intro hmem
        have := h1 _ hmem
        rw [hset_self] at this
        cases this
      · rw [selectFrom]
        simpa using h3

lemma order_clusters_GM_weight_n_components (cpc : CholFn) (g : GMM) :
    (order_clusters_GM_weight cpc g).1.n_components = g.n_components := by
  simp only [order_clusters_GM_weight]
  split <;> rfl

lemma order_cluster_indx_eq (cpc : CholFn) (score : ScoreFn) (g r : GMM) :
    (order_cluster cpc score g r).2
      = selectFrom score r.means_ g.n_components 0
          (List.replicate r.means_.length true) := by
  have h0 : (order_cluster cpc score g r).2
      = selectFrom score r.means_ (order_clusters_GM_weight cpc g).1.n_components 0
          (List.replicate r.means_.length true) := rfl
  rw [h0, order_clusters_GM_weight_n_components]

/-- C2 (amended): for every fitted and reference mixture with equal component
counts and PAIRWISE-DISTINCT reference means, the assignment list produced by
`order_cluster`'s greedy highest-log-probability matching contains no
duplicate reference index, has one entry per fitted component, and every
entry is a valid reference index — a bijection on component indices.  (The
distinctness proviso is forced by the counterexample: the source recovers the
chosen reference index by searching for the first mean equal to the selected
one, so duplicated reference means can be assigned twice.) -/
theorem order_cluster_assignment_nodup (cpc : CholFn) (score : ScoreFn)
    (g r : GMM) (hnd : r.means_.Nodup)
    (hcount : g.n_components = r.means_.length) :
    ((order_cluster cpc score g r).2).Nodup
      ∧ ((order_cluster cpc score g r).2).length = g.n_components
      ∧ ∀ x ∈ (order_cluster cpc score g r).2, x < r.means_.length := by
  rw [order_cluster_indx_eq]
  have hlen : (List.replicate r.means_.length true).length = r.means_.length := by
    simp
  have hcnt : g.n_components ≤ (List.replicate r.means_.length true).count true := by
    rw [List.count_replicate_self]
    omega
  obtain ⟨h1, h2, h3⟩ := selectFrom_invariant score r.means_ hnd
    g.n_components 0 (List.replicate r.means_.length true) hlen hcnt
  refine ⟨h2, h3, ?_⟩
  intro x hx
  have := h1 x hx
  by_contra hge
  push_neg at hge
  rw [List.getD_eq_getElem?_getD] at this
  rw [List.getElem?_replicate] at this
  rw [if_neg (by omega)] at this
  cases this

/-- The identity stand-in for `_compute_precision_cholesky` used by concrete
instances. -/
def cpcId : CholFn := fun c _ => c

/-- A constant log-probability stand-in for `_estimate_log_prob` used by
concrete instances (ties everywhere, resolved first-wins as `np.argmax`
does). -/
def scoreZero : ScoreFn := fun _ _ => 0

/-- A concrete two-component fitted mixture. -/
def gmmFit2 : GMM :=
  ⟨.vec [1/2, 1/2], [[0], [1]], .full [[[1]], [[1]]], .full [[[1]], [[1]]],
    .full [[[1]], [[1]]], .full [[[1]], [[1]]], "full", [1], 2⟩

/-- A concrete two-component reference mixture whose two means coincide. -/
def gmmRefDup : GMM :=
  ⟨.vec [1/2, 1/2], [[0], [0]], .full [[[1]], [[1]]], .full [[[1]], [[1]]],
    .full [[[1]], [[1]]], .full [[[1]], [[1]]], "full", [1], 2⟩

/-- Counterexample to C2 as stated: with a reference mixture whose two means
are equal (component counts match), `order_cluster` assigns reference index 0
to both fitted clusters — the assignment list has a duplicate and is not a
bijection. -/
theorem order_cluster_duplicate_counterexample :
    ¬ ((order_cluster cpcId scoreZero gmmFit2 gmmRefDup).2.Nodup) := by
  rw [order_cluster_indx_eq]
  decide

/-- A concrete two-component reference mixture with distinct means. -/
def gmmRefDist : GMM :=
  ⟨.vec [1/2, 1/2], [[5], [6]], .full [[[1]], [[1]]], .full [[[1]], [[1]]],
    .full [[[1]], [[1]]], .full [[[1]], [[1]]], "full", [1], 2⟩

/-- Witness for C2 at a concrete input. -/
theorem order_cluster_assignment_nodup_witness :
    ((order_cluster cpcId scoreZero gmmFit2 gmmRefDist).2).Nodup
      ∧ ((order_cluster cpcId scoreZero gmmFit2 gmmRefDist).2).length
          = gmmFit2.n_components
      ∧ ∀ x ∈ (order_cluster cpcId scoreZero gmmFit2 gmmRefDist).2,
          x < gmmRefDist.means_.length :=
  order_cluster_assignment_nodup cpcId scoreZero gmmFit2 gmmRefDist
    (by decide) (by decide)

/-! ### C5 — ordering by descending weight is idempotent -/

/-- Strictly descending weight keys (the unambiguous reading of "already in
descending-weight order"; on ties numpy's default unstable sort makes the
permutation unspecified). -/
def StrictDesc (w : List ℚ) : Prop :=
  ∀ m, m + 1 < w.length → w.getD (m + 1) 0 < w.getD m 0

lemma range_succ_reverse (n : Nat) :
    (List.range (n + 1)).reverse = n :: (List.range n).reverse := by
  rw [List.range_succ, List.reverse_append]
  rfl

lemma insertIdx_range_reverse (w : List ℚ) (hdesc : StrictDesc w) (i : Nat)
    (hi : i < w.length) :
    insertIdx w i ((List.range i).reverse) = (List.range (i + 1)).reverse := by
  cases i with
  | zero => rfl
  | succ m =>
      rw [range_succ_reverse m]
      show insertIdx w (m + 1) (m :: (List.range m).reverse) = _
      rw [insertIdx, if_pos (hdesc m hi), range_succ_reverse (m + 1),
        range_succ_reverse m]

lemma argsortAsc_go_desc (w : List ℚ) (hdesc : StrictDesc w) :
    ∀ (k i : Nat), i + k = w.length →
      List.foldl (fun acc j => insertIdx w j acc) ((List.range i).reverse)
          (List.range' i k)
        = (List.range (i + k)).reverse := by
  intro k
  induction k with
  | zero => intro i h; simp
  | succ kk ih =>
      intro i h
      rw [List.range'_succ, List.foldl_cons,
        insertIdx_range_reverse w hdesc i (by omega),
        ih (i + 1) (by omega)]
      congr 2
      omega

lemma argsortAsc_desc (w : List ℚ) (hdesc : StrictDesc w) :
    argsortAsc w = (List.range w.length).reverse := by
  have h := argsortAsc_go_desc w hdesc w.length 0 (by omega)
  simpa [argsortAsc, List.range_eq_range'] using h

lemma map_getD_range {α : Type} (d : α) :
    ∀ (l : List α), (List.range l.length).map (fun j => l.getD j d) = l := by
  intro l
  induction l with
  | nil => rfl
  | cons a as ih =>
      rw [List.length_cons, List.range_succ_eq_map, List.map_cons, List.map_map]
      refine congrArg₂ (· :: ·) rfl ?_
      have hc : ((fun j => (a :: as).getD j d) ∘ Nat.succ)
          = (fun j => as.getD j d) := funext (fun j => rfl)
      rw [hc, ih]

lemma reindexQ_range (l : List ℚ) : reindexQ l (List.range l.length) = l :=
  map_getD_range 0 l

lemma reindexRows_range (l : List (List ℚ)) :
    reindexRows l (List.range l.length) = l :=
  map_getD_range [] l

lemma reindexMats_range (l : List Mat) :
    reindexMats l (List.range l.length) = l :=
  map_getD_range [] l

/-- The number of per-cluster blocks held by a covariance-family array;
a `tied` array has no per-cluster axis. -/
def CovArr.nBlocksOk (A : CovArr) (n : Nat) : Prop :=
  match A with
  | .full l => l.length = n
  | .tied _ => True
  | .diag r => r.length = n
  | .spherical v => v.length = n

lemma CovArr.reindex_range (A : CovArr) (n : Nat) (h : A.nBlocksOk n) :
    A.reindex (List.range n) = A := by
  cases A with
  | full l =>
      rw [CovArr.nBlocksOk] at h
      rw [CovArr.reindex, ← h, reindexMats_range]
  | tied m => rfl
  | diag r =>
      rw [CovArr.nBlocksOk] at h
      rw [CovArr.reindex, ← h, reindexRows_range]
  | spherical v =>
      rw [CovArr.nBlocksOk] at h
      rw [CovArr.reindex, ← h, reindexQ_range]

/-- Shape condition under which the weight key determines the weight array's
cluster axis: trivial for a vector (the key is the vector itself), every row
as long as the key for matrix weights. -/
def WKeyLenOk (w : WVal) : Prop :=
  match w with
  | .vec _ => True
  | .mat W => ∀ row ∈ W, row.length = (matColSums W).length

lemma WVal.reindex_range_key (w : WVal) (hk : WKeyLenOk w) :
    w.reindex (List.range (weightKey w).length) = w := by
  cases w with
  | vec v => rw [WVal.reindex, weightKey, reindexQ_range]
  | mat W =>
      rw [WVal.reindex, weightKey]
      refine congrArg WVal.mat ?_
      have : ∀ row ∈ W, (fun r => reindexQ r (List.range (matColSums W).length)) row
          = row := by
        intro row hrow
        have hlen := hk row hrow
        simp only
        rw [← hlen, reindexQ_range]
      calc W.map (fun r => reindexQ r (List.range (matColSums W).length))
          = W.map id := List.map_congr_left this
        _ = W := List.map_id W

/-- C5: `order_clusters_GM_weight` applied to a mixture whose clusters are
already in (strictly) descending order of total mixing weight produces the
identity permutation and leaves weights, means, covariances and precisions
unchanged.  (The hypotheses fix the shapes: one weight key, mean row and —
unless tied — covariance/precision block per component.) -/
theorem order_clusters_weight_idempotent (cpc : CholFn) (g : GMM)
    (hdesc : StrictDesc (weightKey g.weights_))
    (hm : g.means_.length = (weightKey g.weights_).length)
    (hw : WKeyLenOk g.weights_)
    (hcov : g.covariance_type ≠ "tied" →
      g.covariances_.nBlocksOk (weightKey g.weights_).length
        ∧ g.precisions_.nBlocksOk (weightKey g.weights_).length) :
    (order_clusters_GM_weight cpc g).2 = List.range (weightKey g.weights_).length
      ∧ (order_clusters_GM_weight cpc g).1.weights_ = g.weights_
      ∧ (order_clusters_GM_weight cpc g).1.means_ = g.means_
      ∧ (order_clusters_GM_weight cpc g).1.covariances_ = g.covariances_
      ∧ (order_clusters_GM_weight cpc g).1.precisions_ = g.precisions_ := by
  have hindx : (argsortAsc (weightKey g.weights_)).reverse
      = List.range (weightKey g.weights_).length := by
    rw [argsortAsc_desc _ hdesc, List.reverse_reverse]
  have hwr := WVal.reindex_range_key g.weights_ hw
  have hmr : reindexRows g.means_ (List.range (weightKey g.weights_).length)
      = g.means_ := by
    rw [← hm, reindexRows_range]
  constructor
  · show (argsortAsc (weightKey g.weights_)).reverse = _
    exact hindx
  · by_cases hty : g.covariance_type = "tied"
    · refine ⟨?_, ?_, ?_, ?_⟩ <;>
        simp [order_clusters_GM_weight, hty, hindx, hwr, hmr]
    · obtain ⟨hc1, hc2⟩ := hcov hty
      refine ⟨?_, ?_, ?_, ?_⟩ <;>
        simp [order_clusters_GM_weight, hty, hindx, hwr, hmr,
          CovArr.reindex_range _ _ hc1, CovArr.reindex_range _ _ hc2]

/-- A concrete two-component mixture with strictly descending integer
weights. -/
def gmmDesc : GMM :=
  ⟨.vec [3, 1], [[0], [1]], .full [[[1]], [[1]]], .full [[[1]], [[1]]],
    .full [[[1]], [[1]]], .full [[[1]], [[1]]], "full", [1], 2⟩

/-- Witness for C5 at a concrete input. -/
theorem order_clusters_weight_idempotent_witness :
    (order_clusters_GM_weight cpcId gmmDesc).2
        = List.range (weightKey gmmDesc.weights_).length
      ∧ (order_clusters_GM_weight cpcId gmmDesc).1.weights_ = gmmDesc.weights_
      ∧ (order_clusters_GM_weight cpcId gmmDesc).1.means_ = gmmDesc.means_
      ∧ (order_clusters_GM_weight cpcId gmmDesc).1.covariances_
          = gmmDesc.covariances_
      ∧ (order_clusters_GM_weight cpcId gmmDesc).1.precisions_
          = gmmDesc.precisions_ :=
  order_clusters_weight_idempotent cpcId gmmDesc
    (by
      intro m hm
      have h2 : (weightKey gmmDesc.weights_).length = 2 := rfl
      have h0 : m = 0 := by omega
      subst h0
      decide)
    rfl trivial (fun _ => ⟨rfl, rfl⟩)

/-! ### C3 — the mean blend formula of `update_gmm_with_priors` -/

lemma updStep_means (w rw : List ℚ) (kappa : List (List ℚ)) (nu : List ℚ)
    (r : GMM) (uc : Bool) (pt : String) (g : GMM) (k : Nat) :
    (updStep w rw kappa nu r uc pt g k).means_
      = g.means_.set k (blendMean (w.getD k 0) (rw.getD k 0)
          (g.means_.getD k []) (r.means_.getD k []) (kappa.getD k [])) := by
  simp only [updStep]
  split
  · rfl
  · split <;> rfl

lemma foldl_updStep_means (w rw : List ℚ) (kappa : List (List ℚ))
    (nu : List ℚ) (r : GMM) (uc : Bool) (pt : String) :
    ∀ (ks : List Nat) (g : GMM),
      (ks.foldl (updStep w rw kappa nu r uc pt) g).means_
        = ks.foldl (fun ms k => ms.set k (blendMean (w.getD k 0) (rw.getD k 0)
            (ms.getD k []) (r.means_.getD k []) (kappa.getD k []))) g.means_ := by
  intro ks
  induction ks with
  | nil => intro g; rfl
  | cons k ks ih =>
      intro g
      rw [List.foldl_cons, List.foldl_cons, ih, updStep_means]

lemma foldl_set_length {α : Type} (d : α) (B : Nat → α → α) :
    ∀ (ks : List Nat) (ms : List α),
      (ks.foldl (fun ms k => ms.set k (B k (ms.getD k d))) ms).length
        = ms.length := by
  intro ks
  induction ks with
  | nil => intro ms; rfl
  | cons k ks ih =>
      intro ms
      rw [List.foldl_cons, ih]
      simp

lemma foldl_set_range_getD_ge {α : Type} (d : α) (B : Nat → α → α) :
    ∀ (n : Nat) (ms : List α) (k : Nat), n ≤ k →
      ((List.range n).foldl (fun ms k => ms.set k (B k (ms.getD k d))) ms).getD k d
        = ms.getD k d := by
  intro n
  induction n with
  | zero => intro ms k _; rfl
  | succ m ih =>
      intro ms k hk
      rw [List.range_succ, List.foldl_append, List.foldl_cons, List.foldl_nil]
      have hne : m ≠ k := by omega
      rw [List.getD_eq_getElem?_getD, List.getElem?_set_ne hne,
        ← List.getD_eq_getElem?_getD]
      exact ih ms k (by omega)

lemma foldl_set_range_getD {α : Type} (d : α) (B : Nat → α → α) :
    ∀ (n : Nat) (ms : List α) (k : Nat), k < n → k < ms.length →
      ((List.range n).foldl (fun ms k => ms.set k (B k (ms.getD k d))) ms).getD k d
        = B k (ms.getD k d) := by
  intro n
  induction n with
  | zero => intro ms k hk _; omega
  | succ m ih =>
      intro ms k hk hklen
      rw [List.range_succ, List.foldl_append, List.foldl_cons, List.foldl_nil]
      by_cases hkm : k = m
      · subst hkm
        have hlen := foldl_set_length d B (List.range k) ms
        have hpres := foldl_set_range_getD_ge d B k ms k (le_refl k)
        rw [List.getD_eq_getElem?_getD,
          List.getElem?_set_self (by rw [hlen]; exact hklen)]
        simp only [Option.getD_some]
        rw [hpres]
      · have hk2 : k < m := by omega
        have hne : m ≠ k := fun h => hkm h.symm
        rw [List.getD_eq_getElem?_getD, List.getElem?_set_ne hne,
          ← List.getD_eq_getElem?_getD]
        exact ih ms k hk2 hklen

lemma order_cluster_ref_eq (cpc : CholFn) (score : ScoreFn) (g r : GMM) :
    (order_cluster cpc score g r).1.2 = r := rfl

lemma update_chol_tail_means (cpc : CholFn) (rw nu : List ℚ) (r : GMM)
    (uc : Bool) (g : GMM) :
    (update_chol_tail cpc rw nu r uc g).means_ = g.means_ := by
  simp only [update_chol_tail]
  split
  · split <;> rfl
  · split <;> rfl

lemma order_cluster_n_components (cpc : CholFn) (score : ScoreFn) (g r : GMM) :
    (order_cluster cpc score g r).1.1.n_components = g.n_components := by
  have h1 := order_clusters_GM_weight_n_components cpc g
  simp only [order_cluster]
  split <;> simpa using h1

lemma update_priors_fst_means (cpc : CholFn) (score : ScoreFn) (g r : GMM)
    (zeta : WVal) (nu : List ℚ) (kappa : List (List ℚ)) (uc : Bool)
    (pt : String) :
    (update_gmm_with_priors cpc score g r zeta nu kappa uc pt).1.means_
      = (update_loop
          (aggWeights (order_cluster cpc score (compute_clusters_precision cpc g) r).1.1.vol
            (order_cluster cpc score (compute_clusters_precision cpc g) r).1.1.weights_)
          (aggWeights r.vol r.weights_) kappa nu r uc pt
          (order_cluster cpc score (compute_clusters_precision cpc g) r).1.1).means_ := by
  rw [show (update_gmm_with_priors cpc score g r zeta nu kappa uc pt).1
      = update_chol_tail cpc (aggWeights r.vol r.weights_) nu r uc
          { (update_loop
              (aggWeights (order_cluster cpc score (compute_clusters_precision cpc g) r).1.1.vol
                (order_cluster cpc score (compute_clusters_precision cpc g) r).1.1.weights_)
              (aggWeights r.vol r.weights_) kappa nu r uc pt
              (order_cluster cpc score (compute_clusters_precision cpc g) r).1.1)
            with weights_ := (weightsBlend
              (update_loop
                (aggWeights (order_cluster cpc score (compute_clusters_precision cpc g) r).1.1.vol
                  (order_cluster cpc score (compute_clusters_precision cpc g) r).1.1.weights_)
                (aggWeights r.vol r.weights_) kappa nu r uc pt
                (order_cluster cpc score (compute_clusters_precision cpc g) r).1.1).weights_
              zeta r.weights_) }
      from rfl]
  rw [update_chol_tail_means]

/-- C3: for every cluster `k`, `update_gmm_with_priors` sets the
(post-reordering) mean of cluster `k` to
`(w_k * mean_k + refW_k * kappa_k * refMean_k) / (w_k + refW_k * kappa_k)`
elementwise over features, where `w_k` and `refW_k` are the fitted and
reference mixing weights volume-aggregated to per-cluster scalars (the
aggregation is the identity for vector weights). -/
theorem update_priors_mean_blend (cpc : CholFn) (score : ScoreFn) (g r : GMM)
    (zeta : WVal) (nu : List ℚ) (kappa : List (List ℚ)) (uc : Bool) (pt : String)
    (k : Nat) (hk : k < g.n_components)
    (hklen : k < ((order_cluster cpc score (compute_clusters_precision cpc g) r).1.1).means_.length) :
    (update_gmm_with_priors cpc score g r zeta nu kappa uc pt).1.means_.getD k []
      = blendMean
          ((aggWeights ((order_cluster cpc score (compute_clusters_precision cpc g) r).1.1).vol
              ((order_cluster cpc score (compute_clusters_precision cpc g) r).1.1).weights_).getD k 0)
          ((aggWeights r.vol r.weights_).getD k 0)
          (((order_cluster cpc score (compute_clusters_precision cpc g) r).1.1).means_.getD k [])
          (r.means_.getD k [])
          (kappa.getD k []) := by
  rw [update_priors_fst_means, update_loop, foldl_updStep_means]
  have hn : (order_cluster cpc score (compute_clusters_precision cpc g) r).1.1.n_components
      = g.n_components := order_cluster_n_components cpc score _ r
  rw [hn]
  exact foldl_set_range_getD []
    (fun k x => blendMean
      ((aggWeights ((order_cluster cpc score (compute_clusters_precision cpc g) r).1.1).vol
          ((order_cluster cpc score (compute_clusters_precision cpc g) r).1.1).weights_).getD k 0)
      ((aggWeights r.vol r.weights_).getD k 0) x (r.means_.getD k []) (kappa.getD k []))
    g.n_components _ k hk hklen

/-- Witness for C3 at a concrete input (cluster 0 of a two-component fit
against a distinct-mean reference). -/
theorem update_priors_mean_blend_witness :
    (update_gmm_with_priors cpcId scoreZero gmmDesc gmmRefDist (.vec [0, 0])
        [0, 0] [[0], [0]] false "semi").1.means_.getD 0 []
      = blendMean
          ((aggWeights ((order_cluster cpcId scoreZero (compute_clusters_precision cpcId gmmDesc) gmmRefDist).1.1).vol
              ((order_cluster cpcId scoreZero (compute_clusters_precision cpcId gmmDesc) gmmRefDist).1.1).weights_).getD 0 0)
          ((aggWeights gmmRefDist.vol gmmRefDist.weights_).getD 0 0)
          (((order_cluster cpcId scoreZero (compute_clusters_precision cpcId gmmDesc) gmmRefDist).1.1).means_.getD 0 [])
          (gmmRefDist.means_.getD 0 [])
          ([[0], [0]].getD 0 []) :=
  update_priors_mean_blend cpcId scoreZero gmmDesc gmmRefDist (.vec [0, 0])
    [0, 0] [[0], [0]] false "semi" 0 (by decide) (by decide)

/-! ### C6 — M-step mixing weights -/

/-- Row-normalization of a weight array: a vector sums to 1, every row of a
matrix sums to 1 (the validity invariant `_check_weights` enforces). -/
def WVal.rowsSumOne : WVal → Prop
  | .vec w => w.sum = 1
  | .mat W => ∀ row ∈ W, row.sum = 1

lemma sum_range_map_add (f h : Nat → ℚ) :
    ∀ (K : Nat), ((List.range K).map (fun j => f j + h j)).sum
      = ((List.range K).map f).sum + ((List.range K).map h).sum := by
  intro K
  induction K with
  | zero => simp
  | succ m ih =>
      rw [List.range_succ]
      simp only [List.map_append, List.sum_append, List.map_cons, List.map_nil,
        List.sum_cons, List.sum_nil]
      rw [ih]
      ring

lemma sum_range_getD (r : List ℚ) :
    ((List.range r.length).map (fun j => r.getD j 0)).sum = r.sum := by
  rw [map_getD_range]

lemma sum_map_mul_left (a : ℚ) (l : List ℚ) :
    (l.map (fun x => a * x)).sum = a * l.sum := by
  induction l with
  | nil => simp
  | cons x xs ih => simp [ih, mul_add]

lemma sum_map_div (l : List ℚ) (c : ℚ) :
    (l.map (fun x => x / c)).sum = l.sum / c := by
  induction l with
  | nil => simp
  | cons a as ih => simp [ih, add_div]

lemma sum_colSum_cons (K : Nat) (r : List ℚ) (rs : List (List ℚ)) :
    (colSum K (r :: rs)).sum
      = ((List.range K).map (fun j => r.getD j 0)).sum + (colSum K rs).sum := by
  have h1 : colSum K (r :: rs)
      = (List.range K).map
          (fun j => r.getD j 0 + ((rs.map (fun t => t.getD j 0)).sum)) := by
    simp [colSum]
  rw [h1, sum_range_map_add]
  rfl

lemma sum_colSum_respVol (K : Nat) :
    ∀ (vol : List ℚ) (resp : List (List ℚ)), vol.length = resp.length →
      (∀ row ∈ resp, row.length = K ∧ row.sum = 1) →
      (colSum K (List.zipWith (fun v row => row.map (fun x => v * x)) vol resp)).sum
        = vol.sum := by
  intro vol
  induction vol with
  | nil =>
      intro resp hlen _
      have hresp : resp = [] :=
        List.eq_nil_of_length_eq_zero (by simpa using hlen.symm)
      subst hresp
      simp [colSum]
  | cons a as ih =>
      intro resp hlen hrows
      cases resp with
      | nil => simp at hlen
      | cons r rs =>
          have hlen2 : as.length = rs.length := by simpa using hlen
          obtain ⟨hrK, hr1⟩ := hrows r (by simp)
          have hrows2 : ∀ row ∈ rs, row.length = K ∧ row.sum = 1 :=
            fun row h => hrows row (by simp [h])
          have hhead : ((List.range K).map
              (fun j => (r.map (fun x => a * x)).getD j 0)).sum = a * r.sum := by
            have h2 : (r.map (fun x => a * x)).length = K := by simp [hrK]
            rw [← h2, sum_range_getD, sum_map_mul_left]
          rw [List.zipWith_cons_cons, sum_colSum_cons, hhead, ih rs hlen2 hrows2,
            hr1]
          simp [List.sum_cons]

/-- C6: after every M-step of `WeightedGaussianMixture`: when `weights_` is a
per-cluster vector it is set to the volume-weighted counts (with the epsilon
floor `eps10`, which models `10 * finfo.eps`) divided by
`n_samples * mean(vol)`, and — in exact arithmetic (`eps10 = 0`), for
row-stochastic responsibilities of matching shapes and nonzero total volume —
it sums to 1; when `weights_` is matrix-valued the M-step leaves it untouched,
so every row still sums to 1. -/
theorem m_step_weights_normalized (cpc : CholFn) (covEst : CovEstFn) (g : GMM)
    (X resp : List (List ℚ)) (rc eps10 : ℚ) :
    (∀ w0, g.weights_ = .vec w0 →
        (m_step cpc covEst g X resp rc eps10).weights_
          = .vec (((colSum g.n_components
                (List.zipWith (fun v row => row.map (fun x => v * x)) g.vol resp)).map
              (fun x => x + eps10)).map
            (fun x => x / ((X.length : ℚ) * (g.vol.sum / (g.vol.length : ℚ))))))
      ∧ (∀ w0, g.weights_ = .vec w0 → eps10 = 0 → g.vol.length = X.length →
          (∀ row ∈ resp, row.length = g.n_components ∧ row.sum = 1) →
          g.vol.length = resp.length → g.vol.sum ≠ 0 →
          ((m_step cpc covEst g X resp rc eps10).weights_).rowsSumOne)
      ∧ (∀ W, g.weights_ = .mat W →
          (m_step cpc covEst g X resp rc eps10).weights_ = .mat W)
      ∧ (∀ W, g.weights_ = .mat W → (WVal.mat W).rowsSumOne →
          ((m_step cpc covEst g X resp rc eps10).weights_).rowsSumOne) := by
  obtain ⟨gw, gm, gc, gp, gpc, gcc, gt, gv, gn⟩ := g
  have hvec : ∀ w0, gw = .vec w0 →
      (m_step cpc covEst ⟨gw, gm, gc, gp, gpc, gcc, gt, gv, gn⟩ X resp rc eps10).weights_
        = .vec (((colSum gn
              (List.zipWith (fun v row => row.map (fun x => v * x)) gv resp)).map
            (fun x => x + eps10)).map
          (fun x => x / ((X.length : ℚ) * (gv.sum / (gv.length : ℚ))))) := by
    intro w0 hw
    subst hw
    rfl
  have hmat : ∀ W, gw = .mat W →
      (m_step cpc covEst ⟨gw, gm, gc, gp, gpc, gcc, gt, gv, gn⟩ X resp rc eps10).weights_
        = .mat W := by
    intro W hw
    subst hw
    rfl
  refine ⟨hvec, ?_, hmat, ?_⟩
  · intro w0 hw heps hvX hrows hvresp hS
    rw [hvec w0 hw]
    show ((((colSum gn
        (List.zipWith (fun v row => row.map (fun x => v * x)) gv resp)).map
          (fun x => x + eps10)).map
        (fun x => x / ((X.length : ℚ) * (gv.sum / (gv.length : ℚ))))).sum) = 1
    subst heps
    have hid : ((colSum gn
        (List.zipWith (fun v row => row.map (fun x => v * x)) gv resp)).map
          (fun x => x + 0))
        = colSum gn (List.zipWith (fun v row => row.map (fun x => v * x)) gv resp) := by
      simp
    rw [hid, sum_map_div,
      sum_colSum_respVol gn gv resp hvresp hrows]
    have hn0 : (X.length : ℚ) ≠ 0 := by
      have hX : X.length ≠ 0 := by
        intro h0
        have hgv : gv = [] := List.eq_nil_of_length_eq_zero (by rw [hvX, h0])
        rw [hgv] at hS
        simp at hS
      exact_mod_cast hX
    have hD : (X.length : ℚ) * (gv.sum / (gv.length : ℚ)) = gv.sum := by
      rw [hvX]
      field_simp
    rw [hD]
    exact div_self hS
  · intro W hw hsum
    rw [hmat W hw]
    exact hsum

/-- A trivial stand-in for the scikit-learn covariance-family estimators used
by concrete instances. -/
def covEst0 : CovEstFn := fun _ _ _ _ _ => CovArr.full []

/-- A one-component mixture with vector weights on a one-cell mesh. -/
def gmmVecW : GMM :=
  ⟨.vec [1], [[0]], .full [[[1]]], .full [[[1]]], .full [[[1]]], .full [[[1]]],
    "full", [1], 1⟩

/-- A one-component mixture with matrix-valued weights on a one-cell mesh. -/
def gmmMatW : GMM :=
  ⟨.mat [[1]], [[0]], .full [[[1]]], .full [[[1]]], .full [[[1]]], .full [[[1]]],
    "full", [1], 1⟩

/-- Witness for C6 at concrete inputs: the weight formula and its
normalization for a vector-weight mixture, and untouched matrix weights. -/
theorem m_step_weights_normalized_witness :
    (m_step cpcId covEst0 gmmVecW [[2]] [[1]] 0 0).weights_
        = .vec (((colSum gmmVecW.n_components
              (List.zipWith (fun v row => row.map (fun x => v * x)) gmmVecW.vol [[1]])).map
            (fun x => x + 0)).map
          (fun x => x / ((([[(2 : ℚ)]] : List (List ℚ)).length : ℚ)
            * (gmmVecW.vol.sum / (gmmVecW.vol.length : ℚ)))))
      ∧ ((m_step cpcId covEst0 gmmVecW [[2]] [[1]] 0 0).weights_).rowsSumOne
      ∧ (m_step cpcId covEst0 gmmMatW [[2]] [[1]] 0 0).weights_ = .mat [[1]] :=
  ⟨(m_step_weights_normalized cpcId covEst0 gmmVecW [[2]] [[1]] 0 0).1 [1] rfl,
   (m_step_weights_normalized cpcId covEst0 gmmVecW [[2]] [[1]] 0 0).2.1 [1] rfl
     rfl rfl
     (by
       intro row hrow
       rw [List.mem_singleton] at hrow
       subst hrow
       refine ⟨rfl, by norm_num⟩)
     rfl
     (by norm_num [gmmVecW]),
   (m_step_weights_normalized cpcId covEst0 gmmMatW [[2]] [[1]] 0 0).2.2.1
     [[1]] rfl⟩

/-! ### C4 — zero prior hyperparameters make the blend a no-op -/

/-- The all-zeros weight array of the same shape (`zeta * ones_like(weights)`
with `zeta = 0`, as `GaussianMixtureWithPrior.__init__` builds it). -/
def zerosLikeW : WVal → WVal
  | .vec w => .vec (w.map (fun _ => 0))
  | .mat W => .mat (W.map (fun row => row.map (fun _ => 0)))

/-- Dimension compatibility of two list-of-rows matrices: `B` at least as
large as `A` in both axes (so elementwise `zipWith` ops do not truncate `A`). -/
def matDimLE (A B : Mat) : Prop :=
  A.length ≤ B.length ∧ ∀ p ∈ A.zip B, p.1.length ≤ p.2.length

instance (A B : Mat) : Decidable (matDimLE A B) :=
  inferInstanceAs (Decidable (A.length ≤ B.length ∧ ∀ p ∈ A.zip B, p.1.length ≤ p.2.length))

/-- Shape compatibility of cluster `k`'s blocks for the per-cluster
covariance/precision blend (mismatched families need no condition: the
embedded blend leaves the array unchanged there). -/
def covBlendAtOk (A B : CovArr) (k : Nat) : Prop :=
  match A, B with
  | .full la, .full lb => matDimLE (la.getD k []) (lb.getD k [])
  | .diag ra, .diag rb => (ra.getD k []).length ≤ (rb.getD k []).length
  | _, _ => True

instance (A B : CovArr) (k : Nat) : Decidable (covBlendAtOk A B k) :=
  match A, B with
  | .full la, .full lb =>
      inferInstanceAs (Decidable (matDimLE (la.getD k []) (lb.getD k [])))
  | .diag ra, .diag rb =>
      inferInstanceAs (Decidable ((ra.getD k []).length ≤ (rb.getD k []).length))
  | .full _, .tied _ => isTrue trivial
  | .full _, .diag _ => isTrue trivial
  | .full _, .spherical _ => isTrue trivial
  | .tied _, .full _ => isTrue trivial
  | .tied _, .tied _ => isTrue trivial
  | .tied _, .diag _ => isTrue trivial
  | .tied _, .spherical _ => isTrue trivial
  | .diag _, .full _ => isTrue trivial
  | .diag _, .tied _ => isTrue trivial
  | .diag _, .spherical _ => isTrue trivial
  | .spherical _, .full _ => isTrue trivial
  | .spherical _, .tied _ => isTrue trivial
  | .spherical _, .diag _ => isTrue trivial
  | .spherical _, .spherical _ => isTrue trivial

/-- Shape compatibility for the tied aggregate blend. -/
def tiedBlendOk (A B : CovArr) : Prop :=
  match A, B with
  | .tied MA, .tied MB => matDimLE MA MB
  | _, _ => True

instance (A B : CovArr) : Decidable (tiedBlendOk A B) :=
  match A, B with
  | .tied MA, .tied MB => inferInstanceAs (Decidable (matDimLE MA MB))
  | .full _, .full _ => isTrue trivial
  | .full _, .tied _ => isTrue trivial
  | .full _, .diag _ => isTrue trivial
  | .full _, .spherical _ => isTrue trivial
  | .tied _, .full _ => isTrue trivial
  | .tied _, .diag _ => isTrue trivial
  | .tied _, .spherical _ => isTrue trivial
  | .diag _, .full _ => isTrue trivial
  | .diag _, .tied _ => isTrue trivial
  | .diag _, .diag _ => isTrue trivial
  | .diag _, .spherical _ => isTrue trivial
  | .spherical _, .full _ => isTrue trivial
  | .spherical _, .tied _ => isTrue trivial
  | .spherical _, .diag _ => isTrue trivial
  | .spherical _, .spherical _ => isTrue trivial

/-- Shape compatibility for the mixing-weight update with a zero `zeta`: the
reference array at least as wide as the fitted one (a vector `weights_`
against matrix-valued reference weights broadcasts to a matrix and is
excluded: numpy changes the array's shape there, see the counterexample
discussion). -/
def weightsZeroOk (gw refw : WVal) : Prop :=
  match gw, refw with
  | .vec a, .vec w => a.length ≤ w.length
  | .mat A, .vec w => ∀ row ∈ A, row.length ≤ w.length
  | .mat A, .mat W => A.length ≤ W.length ∧ ∀ p ∈ A.zip W, p.1.length ≤ p.2.length
  | .vec _, .mat _ => False

instance (gw refw : WVal) : Decidable (weightsZeroOk gw refw) :=
  match gw, refw with
  | .vec a, .vec w => inferInstanceAs (Decidable (a.length ≤ w.length))
  | .mat A, .vec w => inferInstanceAs (Decidable (∀ row ∈ A, row.length ≤ w.length))
  | .mat A, .mat W =>
      inferInstanceAs (Decidable (A.length ≤ W.length ∧ ∀ p ∈ A.zip W, p.1.length ≤ p.2.length))
  | .vec _, .mat _ => isFalse (fun h => h)

lemma set_getD_eq_self {α : Type} (d : α) :
    ∀ (l : List α) (k : Nat), l.set k (l.getD k d) = l := by
  intro l
  induction l with
  | nil => intro k; rfl
  | cons a as ih =>
      intro k
      cases k with
      | zero => rfl
      | succ n =>
          show a :: as.set n (as.getD n d) = a :: as
          rw [ih n]

lemma getD_forall {α : Type} (P : α → Prop) (d : α) (l : List α)
    (h : ∀ x ∈ l, P x) (hd : P d) (k : Nat) : P (l.getD k d) := by
  by_cases hk : k < l.length
  · apply h
    rw [List.getD_eq_getElem?_getD, List.getElem?_eq_getElem hk]
    exact List.getElem_mem hk
  · rw [List.getD_eq_getElem?_getD, List.getElem?_eq_none (by omega)]
    exact hd

lemma foldl_id {α β : Type} (f : α → β → α) (a : α) :
    ∀ (l : List β), (∀ b ∈ l, f a b = a) → l.foldl f a = a := by
  intro l
  induction l with
  | nil => intro _; rfl
  | cons x xs ih =>
      intro h
      rw [List.foldl_cons, h x (by simp)]
      exact ih (fun b hb => h b (by simp [hb]))

lemma vecAdd_map_zero_mul :
    ∀ (a b : List ℚ), a.length ≤ b.length →
      vecAdd a (b.map (fun x => 0 * x)) = a := by
  intro a
  induction a with
  | nil => intro b _; rfl
  | cons x xs ih =>
      intro b hlen
      cases b with
      | nil => simp at hlen
      | cons y ys =>
          show (x + 0 * y) :: vecAdd xs (ys.map (fun x => 0 * x)) = x :: xs
          rw [ih ys (by simpa using hlen)]
          norm_num

lemma matAdd_smul_zero (MA MB : Mat) (h : matDimLE MA MB) :
    matAdd MA (matSMul 0 MB) = MA := by
  obtain ⟨hlen, hrows⟩ := h
  revert MB hlen hrows
  induction MA with
  | nil => intro MB _ _; rfl
  | cons ra ras ih =>
      intro MB hlen hrows
      cases MB with
      | nil => simp at hlen
      | cons rb rbs =>
          show vecAdd ra (vecSMul 0 rb) :: matAdd ras (matSMul 0 rbs) = ra :: ras
          have h1 : vecAdd ra (vecSMul 0 rb) = ra :=
            vecAdd_map_zero_mul ra rb (hrows (ra, rb) (by simp [List.zip_cons_cons]))
          rw [h1, ih rbs (by simpa using hlen)
            (fun p hp => hrows p (by simp [List.zip_cons_cons, hp]))]

lemma matSMul_one (MA : Mat) : matSMul 1 MA = MA := by
  induction MA with
  | nil => rfl
  | cons ra ras ih =>
      show vecSMul 1 ra :: matSMul 1 ras = ra :: ras
      rw [ih]
      simp [vecSMul]

lemma tiedBlend_zero_id (A B : CovArr) (htied : tiedBlendOk A B) :
    tiedBlend A B 0 = A := by
  cases A with
  | tied MA =>
      cases B with
      | tied MB =>
          have hd : matDimLE MA MB := htied
          show CovArr.tied (matSMul (1 / (1 + 0)) (matAdd MA (matSMul 0 MB))) = _
          rw [matAdd_smul_zero MA MB hd]
          norm_num [matSMul_one]
      | full _ => rfl
      | diag _ => rfl
      | spherical _ => rfl
  | full _ => cases B <;> rfl
  | diag _ => cases B <;> rfl
  | spherical _ => cases B <;> rfl

lemma blendPoint_zero (wk rwk x y : ℚ) (hwk : wk ≠ 0) :
    (1 / (wk + rwk * 0)) * (wk * x + rwk * 0 * y) = x := by
  field_simp

lemma blendMean_zero (wk rwk : ℚ) (hwk : wk ≠ 0) :
    ∀ (m rm kk : List ℚ), m.length ≤ rm.length → m.length ≤ kk.length →
      (∀ c ∈ kk, c = 0) → blendMean wk rwk m rm kk = m := by
  intro m
  induction m with
  | nil => intro rm kk _ _ _; rfl
  | cons a as ih =>
      intro rm kk h1 h2 hz
      cases rm with
      | nil => simp at h1
      | cons b bs =>
          cases kk with
          | nil => simp at h2
          | cons c cs =>
              have hc : c = 0 := hz c (by simp)
              subst hc
              show (1 / (wk + rwk * 0)) * (wk * a + rwk * 0 * b)
                  :: blendMean wk rwk as bs cs = a :: as
              rw [blendPoint_zero wk rwk a b hwk,
                ih bs cs (by simpa using h1) (by simpa using h2)
                  (fun c hc => hz c (by simp [hc]))]

lemma zipWith_blend_zero (wk rwk : ℚ) (hwk : wk ≠ 0) :
    ∀ (a b : List ℚ), a.length ≤ b.length →
      List.zipWith (fun x y => (1 / (wk + rwk * 0)) * (wk * x + rwk * 0 * y)) a b
        = a := by
  intro a
  induction a with
  | nil => intro b _; rfl
  | cons x xs ih =>
      intro b hlen
      cases b with
      | nil => simp at hlen
      | cons y ys =>
          show (1 / (wk + rwk * 0)) * (wk * x + rwk * 0 * y)
              :: List.zipWith _ xs ys = x :: xs
          rw [blendPoint_zero wk rwk x y hwk, ih ys (by simpa using hlen)]

lemma zipWith_mat_blend_zero (wk rwk : ℚ) (hwk : wk ≠ 0) :
    ∀ (MA MB : Mat), matDimLE MA MB →
      List.zipWith (fun ra rb => List.zipWith
        (fun x y => (1 / (wk + rwk * 0)) * (wk * x + rwk * 0 * y)) ra rb) MA MB
        = MA := by
  intro MA
  induction MA with
  | nil => intro MB _; rfl
  | cons ra ras ih =>
      intro MB hd
      obtain ⟨hlen, hrows⟩ := hd
      cases MB with
      | nil => simp at hlen
      | cons rb rbs =>
          show List.zipWith _ ra rb :: List.zipWith _ ras rbs = ra :: ras
          rw [zipWith_blend_zero wk rwk hwk ra rb
              (hrows (ra, rb) (by simp [List.zip_cons_cons])),
            ih rbs ⟨by simpa using hlen,
              fun p hp => hrows p (by simp [List.zip_cons_cons, hp])⟩]

lemma blendCovAt_zero_id (A B : CovArr) (k : Nat) (wk rwk : ℚ) (hwk : wk ≠ 0)
    (hok : covBlendAtOk A B k) :
    blendCovAt A B k wk rwk 0 none = A := by
  cases A with
  | full la =>
      cases B with
      | full lb =>
          have hd : matDimLE (la.getD k []) (lb.getD k []) := hok
          show CovArr.full (la.set k _) = CovArr.full la
          rw [zipWith_mat_blend_zero wk rwk hwk _ _ hd, set_getD_eq_self]
      | tied _ => rfl
      | diag _ => rfl
      | spherical _ => rfl
  | tied _ => rfl
  | diag ra =>
      cases B with
      | diag rb =>
          have hd : (ra.getD k []).length ≤ (rb.getD k []).length := hok
          show CovArr.diag (ra.set k _) = CovArr.diag ra
          rw [zipWith_blend_zero wk rwk hwk _ _ hd, set_getD_eq_self]
      | full _ => rfl
      | tied _ => rfl
      | spherical _ => rfl
  | spherical va =>
      cases B with
      | spherical vb =>
          show CovArr.spherical (va.set k
              ((1 / (wk + rwk * 0)) * (wk * va.getD k 0 + rwk * 0 * vb.getD k 0)))
            = CovArr.spherical va
          rw [blendPoint_zero wk rwk _ _ hwk, set_getD_eq_self]
      | full _ => rfl
      | tied _ => rfl
      | diag _ => rfl

lemma updStep_zero_id (w rw : List ℚ) (kappa : List (List ℚ)) (nu : List ℚ)
    (r : GMM) (pt : String) (g : GMM) (k : Nat)
    (hwk : w.getD k 0 ≠ 0)
    (hnuk : nu.getD k 0 = 0)
    (hkapk : ∀ x ∈ kappa.getD k [], x = 0)
    (hm1 : (g.means_.getD k []).length ≤ (r.means_.getD k []).length)
    (hm2 : (g.means_.getD k []).length ≤ (kappa.getD k []).length)
    (hps : covBlendAtOk g.precisions_ r.precisions_ k) :
    updStep w rw kappa nu r false pt g k = g := by
  have hmean := blendMean_zero (w.getD k 0) (rw.getD k 0) hwk
    (g.means_.getD k []) (r.means_.getD k []) (kappa.getD k []) hm1 hm2 hkapk
  simp only [updStep]
  rw [hmean, set_getD_eq_self]
  split
  · rfl
  · show ({ g with
              means_ := g.means_,
              precisions_ := (blendCovAt g.precisions_ r.precisions_ k
                (w.getD k 0) (rw.getD k 0) (nu.getD k 0) none) } : GMM) = g
    rw [hnuk, blendCovAt_zero_id _ _ k _ _ hwk hps]

lemma update_loop_zero_id (w rw : List ℚ) (kappa : List (List ℚ))
    (nu : List ℚ) (r : GMM) (pt : String) (g : GMM)
    (hw : ∀ k, k < g.n_components → w.getD k 0 ≠ 0)
    (hnu : ∀ x ∈ nu, x = 0)
    (hkap : ∀ row ∈ kappa, ∀ x ∈ row, x = 0)
    (hm : ∀ k, k < g.n_components →
      (g.means_.getD k []).length ≤ (r.means_.getD k []).length
        ∧ (g.means_.getD k []).length ≤ (kappa.getD k []).length)
    (hps : ∀ k, k < g.n_components → covBlendAtOk g.precisions_ r.precisions_ k) :
    update_loop w rw kappa nu r false pt g = g := by
  unfold update_loop
  apply foldl_id
  intro k hk
  rw [List.mem_range] at hk
  exact updStep_zero_id w rw kappa nu r pt g k (hw k hk)
    (getD_forall (fun x => x = 0) 0 nu hnu rfl k)
    (getD_forall (fun row => ∀ x ∈ row, x = 0) [] kappa hkap (by simp) k)
    (hm k hk).1 (hm k hk).2 (hps k hk)

lemma zipWith_mul_zerosLike (v : List ℚ) :
    List.zipWith (· * ·) (v.map (fun _ => (0 : ℚ))) v = v.map (fun _ => 0) := by
  induction v with
  | nil => rfl
  | cons x xs ih =>
      show (0 * x) :: List.zipWith (· * ·) (xs.map _) xs = 0 :: xs.map _
      rw [zero_mul, ih]

lemma zipWith_rows_mul_zerosLike :
    ∀ (W : Mat),
      List.zipWith (fun rx ry => List.zipWith (· * ·) rx ry)
          (W.map (fun row => row.map (fun _ => (0 : ℚ)))) W
        = W.map (fun row => row.map (fun _ => 0)) := by
  intro W
  induction W with
  | nil => rfl
  | cons r rs ih =>
      show List.zipWith (· * ·) (r.map _) r :: List.zipWith _ (rs.map _) rs
          = r.map _ :: rs.map _
      rw [zipWith_mul_zerosLike r, ih]

lemma hadamard_zerosLike (w : WVal) : (zerosLikeW w).hadamard w = zerosLikeW w := by
  cases w with
  | vec v =>
      show WVal.vec (List.zipWith (· * ·) (v.map (fun _ => 0)) v)
          = WVal.vec (v.map (fun _ => 0))
      rw [zipWith_mul_zerosLike v]
  | mat W =>
      show WVal.mat (List.zipWith (fun rx ry => List.zipWith (· * ·) rx ry)
            (W.map (fun row => row.map (fun _ => 0))) W)
          = WVal.mat (W.map (fun row => row.map (fun _ => 0)))
      rw [zipWith_rows_mul_zerosLike W]

lemma sum_map_zero {β : Type} (v : List β) :
    (v.map (fun _ => (0 : ℚ))).sum = 0 := by
  induction v with
  | nil => rfl
  | cons a as ih => simp [ih]

lemma vecAdd_map_zero {β : Type} :
    ∀ (a : List ℚ) (b : List β), a.length ≤ b.length →
      vecAdd a (b.map (fun _ => 0)) = a := by
  intro a
  induction a with
  | nil => intro b _; rfl
  | cons x xs ih =>
      intro b hlen
      cases b with
      | nil => simp at hlen
      | cons y ys =>
          show (x + 0) :: vecAdd xs (ys.map (fun _ => 0)) = x :: xs
          rw [add_zero, ih ys (by simpa using hlen)]

lemma map_div_one_plus_zero (l : List ℚ) :
    l.map (fun x => x / (1 + (0 : ℚ))) = l := by
  induction l with
  | nil => rfl
  | cons a as ih =>
      show a / (1 + 0) :: as.map _ = a :: as
      rw [ih]
      norm_num

lemma zip_rows_blend_zeros :
    ∀ (A W : Mat), A.length ≤ W.length →
      (∀ p ∈ A.zip W, p.1.length ≤ p.2.length) →
      List.zipWith (fun row brow => (vecAdd row brow).map
          (fun x => x / (1 + brow.sum)))
        A (W.map (fun wrow => wrow.map (fun _ => (0 : ℚ)))) = A := by
  intro A
  induction A with
  | nil => intro W _ _; rfl
  | cons row rows ih =>
      intro W hlen hrows
      cases W with
      | nil => simp at hlen
      | cons wrow wrows =>
          have hr : row.length ≤ wrow.length :=
            hrows (row, wrow) (by simp [List.zip_cons_cons])
          show (vecAdd row (wrow.map (fun _ => 0))).map
              (fun x => x / (1 + (wrow.map (fun _ => (0 : ℚ))).sum))
              :: List.zipWith _ rows (wrows.map _) = row :: rows
          rw [sum_map_zero, vecAdd_map_zero row wrow hr, map_div_one_plus_zero,
            ih wrows (by simpa using hlen)
              (fun p hp => hrows p (by simp [List.zip_cons_cons, hp]))]

lemma weightsBlend_zeros (gw refw : WVal) (h : weightsZeroOk gw refw) :
    weightsBlend gw (zerosLikeW refw) refw = gw := by
  rw [weightsBlend, hadamard_zerosLike]
  cases refw with
  | vec w =>
      cases gw with
      | vec a =>
          have hlen : a.length ≤ w.length := h
          show WVal.vec ((vecAdd a (w.map (fun _ => 0))).map
              (fun x => x / (1 + (w.map (fun _ => (0 : ℚ))).sum))) = WVal.vec a
          rw [sum_map_zero, vecAdd_map_zero a w hlen, map_div_one_plus_zero]
      | mat A =>
          have hrows : ∀ row ∈ A, row.length ≤ w.length := h
          show WVal.mat (A.map (fun row => (vecAdd row (w.map (fun _ => 0))).map
              (fun x => x / (1 + (w.map (fun _ => (0 : ℚ))).sum)))) = WVal.mat A
          refine congrArg WVal.mat ?_
          calc A.map (fun row => (vecAdd row (w.map (fun _ => 0))).map
                (fun x => x / (1 + (w.map (fun _ => (0 : ℚ))).sum)))
              = A.map id := by
                refine List.map_congr_left ?_
                intro row hrow
                simp only [id, sum_map_zero]
                rw [vecAdd_map_zero row w (hrows row hrow), map_div_one_plus_zero]
            _ = A := List.map_id A
  | mat W =>
      cases gw with
      | vec a => exact absurd h (fun hf => hf)
      | mat A =>
          obtain ⟨hlen, hrows⟩ := h
          show WVal.mat (List.zipWith (fun row brow => (vecAdd row brow).map
              (fun x => x / (1 + brow.sum)))
              A (W.map (fun wrow => wrow.map (fun _ => 0)))) = WVal.mat A
          exact congrArg WVal.mat (zip_rows_blend_zeros A W hlen hrows)

lemma updStep_weights (w rw : List ℚ) (kappa : List (List ℚ)) (nu : List ℚ)
    (r : GMM) (uc : Bool) (pt : String) (g : GMM) (k : Nat) :
    (updStep w rw kappa nu r uc pt g k).weights_ = g.weights_ := by
  simp only [updStep]
  split
  · rfl
  · split <;> rfl

lemma update_loop_weights (w rw : List ℚ) (kappa : List (List ℚ))
    (nu : List ℚ) (r : GMM) (uc : Bool) (pt : String) (g : GMM) :
    (update_loop w rw kappa nu r uc pt g).weights_ = g.weights_ := by
  unfold update_loop
  have hgen : ∀ (ks : List Nat) (g0 : GMM),
      (ks.foldl (updStep w rw kappa nu r uc pt) g0).weights_ = g0.weights_ := by
    intro ks
    induction ks with
    | nil => intro g0; rfl
    | cons k ks ih =>
        intro g0
        rw [List.foldl_cons, ih, updStep_weights]
  exact hgen _ g

lemma update_chol_tail_weights (cpc : CholFn) (rw nu : List ℚ) (r : GMM)
    (uc : Bool) (g : GMM) :
    (update_chol_tail cpc rw nu r uc g).weights_ = g.weights_ := by
  simp only [update_chol_tail]
  split
  · split <;> rfl
  · split <;> rfl

lemma zipWith_mul_nu_zero (rw nu : List ℚ) (hnu : ∀ x ∈ nu, x = 0) :
    (List.zipWith (· * ·) rw nu).sum = 0 := by
  induction rw generalizing nu with
  | nil => simp
  | cons a as ih =>
      cases nu with
      | nil => simp
      | cons x xs =>
          have hx : x = 0 := hnu x (by simp)
          subst hx
          show a * 0 + (List.zipWith (· * ·) as xs).sum = 0
          rw [mul_zero, ih xs (fun y hy => hnu y (by simp [hy]))]
          norm_num

lemma update_chol_tail_false_prec (cpc : CholFn) (rw nu : List ℚ) (r : GMM)
    (g : GMM) (hnu : ∀ x ∈ nu, x = 0)
    (htied : tiedBlendOk g.precisions_ r.precisions_) :
    (update_chol_tail cpc rw nu r false g).precisions_ = g.precisions_ := by
  simp only [update_chol_tail]
  split
  · show tiedBlend g.precisions_ r.precisions_
        ((List.zipWith (· * ·) rw nu).sum) = g.precisions_
    rw [zipWith_mul_nu_zero rw nu hnu, tiedBlend_zero_id _ _ htied]
  · rfl

lemma update_chol_tail_false_cov (cpc : CholFn) (rw nu : List ℚ) (r : GMM)
    (g : GMM) (hnu : ∀ x ∈ nu, x = 0)
    (htied : tiedBlendOk g.precisions_ r.precisions_)
    (hrt : derivPrecisions (cpc g.precisions_ g.covariance_type)
        g.covariance_type = g.covariances_) :
    (update_chol_tail cpc rw nu r false g).covariances_ = g.covariances_ := by
  simp only [update_chol_tail]
  split
  · show derivPrecisions (cpc (tiedBlend g.precisions_ r.precisions_
        ((List.zipWith (· * ·) rw nu).sum)) g.covariance_type)
        g.covariance_type = g.covariances_
    rw [zipWith_mul_nu_zero rw nu hnu, tiedBlend_zero_id _ _ htied]
    exact hrt
  · show derivPrecisions (cpc g.precisions_ g.covariance_type)
        g.covariance_type = g.covariances_
    exact hrt

lemma update_priors_fst_eq (cpc : CholFn) (score : ScoreFn) (g r : GMM)
    (zeta : WVal) (nu : List ℚ) (kappa : List (List ℚ)) (uc : Bool)
    (pt : String) :
    (update_gmm_with_priors cpc score g r zeta nu kappa uc pt).1
      = update_chol_tail cpc (aggWeights r.vol r.weights_) nu r uc
          { (update_loop
              (aggWeights (order_cluster cpc score (compute_clusters_precision cpc g) r).1.1.vol
                (order_cluster cpc score (compute_clusters_precision cpc g) r).1.1.weights_)
              (aggWeights r.vol r.weights_) kappa nu r uc pt
              (order_cluster cpc score (compute_clusters_precision cpc g) r).1.1)
            with weights_ := (weightsBlend
              (update_loop
                (aggWeights (order_cluster cpc score (compute_clusters_precision cpc g) r).1.1.vol
                  (order_cluster cpc score (compute_clusters_precision cpc g) r).1.1.weights_)
                (aggWeights r.vol r.weights_) kappa nu r uc pt
                (order_cluster cpc score (compute_clusters_precision cpc g) r).1.1).weights_
              zeta r.weights_) } := rfl

/-- C4 (amended): calling `update_gmm_with_priors` with
`kappa = nu = zeta = 0` makes the prior blend itself a no-op, but the
function's mandatory preprocessing still runs: the result equals
`order_cluster (compute_clusters_precision gmm)` — the precision-recomputed,
reordered mixture — in mixing weights, means, covariances and precisions.
Parameters are NOT in general unchanged from the input, because the
reordering can permute the clusters (see the counterexample).  Hypotheses:
positive aggregated weights, reference/`kappa` shapes at least as large as
the fitted mixture's, and an exact covariance/precision Cholesky round trip
(the theorem is stated for the precision-domain update,
`update_covariances=False`, the fit driver's default). -/
theorem update_priors_zero_noop (cpc : CholFn) (score : ScoreFn) (g r : GMM)
    (nu : List ℚ) (kappa : List (List ℚ)) (pt : String)
    (hnu : ∀ x ∈ nu, x = 0)
    (hkap : ∀ row ∈ kappa, ∀ x ∈ row, x = 0)
    (hw : ∀ k, k < (order_cluster cpc score (compute_clusters_precision cpc g) r).1.1.n_components →
        (aggWeights (order_cluster cpc score (compute_clusters_precision cpc g) r).1.1.vol
          (order_cluster cpc score (compute_clusters_precision cpc g) r).1.1.weights_).getD k 0 ≠ 0)
    (hm : ∀ k, k < (order_cluster cpc score (compute_clusters_precision cpc g) r).1.1.n_components →
        ((order_cluster cpc score (compute_clusters_precision cpc g) r).1.1.means_.getD k []).length
            ≤ (r.means_.getD k []).length
          ∧ ((order_cluster cpc score (compute_clusters_precision cpc g) r).1.1.means_.getD k []).length
            ≤ (kappa.getD k []).length)
    (hps : ∀ k, k < (order_cluster cpc score (compute_clusters_precision cpc g) r).1.1.n_components →
        covBlendAtOk (order_cluster cpc score (compute_clusters_precision cpc g) r).1.1.precisions_
          r.precisions_ k)
    (htied : tiedBlendOk (order_cluster cpc score (compute_clusters_precision cpc g) r).1.1.precisions_
        r.precisions_)
    (hwsh : weightsZeroOk (order_cluster cpc score (compute_clusters_precision cpc g) r).1.1.weights_
        r.weights_)
    (hrt : derivPrecisions
        (cpc (order_cluster cpc score (compute_clusters_precision cpc g) r).1.1.precisions_
          (order_cluster cpc score (compute_clusters_precision cpc g) r).1.1.covariance_type)
        (order_cluster cpc score (compute_clusters_precision cpc g) r).1.1.covariance_type
      = (order_cluster cpc score (compute_clusters_precision cpc g) r).1.1.covariances_) :
    (update_gmm_with_priors cpc score g r (zerosLikeW r.weights_) nu kappa false pt).1.weights_
        = (order_cluster cpc score (compute_clusters_precision cpc g) r).1.1.weights_
      ∧ (update_gmm_with_priors cpc score g r (zerosLikeW r.weights_) nu kappa false pt).1.means_
        = (order_cluster cpc score (compute_clusters_precision cpc g) r).1.1.means_
      ∧ (update_gmm_with_priors cpc score g r (zerosLikeW r.weights_) nu kappa false pt).1.covariances_
        = (order_cluster cpc score (compute_clusters_precision cpc g) r).1.1.covariances_
      ∧ (update_gmm_with_priors cpc score g r (zerosLikeW r.weights_) nu kappa false pt).1.precisions_
        = (order_cluster cpc score (compute_clusters_precision cpc g) r).1.1.precisions_ := by
  have hloop := update_loop_zero_id
    (aggWeights (order_cluster cpc score (compute_clusters_precision cpc g) r).1.1.vol
      (order_cluster cpc score (compute_clusters_precision cpc g) r).1.1.weights_)
    (aggWeights r.vol r.weights_) kappa nu r pt
    (order_cluster cpc score (compute_clusters_precision cpc g) r).1.1
    hw hnu hkap hm hps
  have hwb := weightsBlend_zeros
    (order_cluster cpc score (compute_clusters_precision cpc g) r).1.1.weights_
    r.weights_ hwsh
  rw [update_priors_fst_eq, hloop, hwb]
  refine ⟨?_, ?_, ?_, ?_⟩
  · rw [update_chol_tail_weights]
  · rw [update_chol_tail_means]
  · exact update_chol_tail_false_cov cpc _ nu r _ hnu htied hrt
  · exact update_chol_tail_false_prec cpc _ nu r _ hnu htied

/-- A two-component mixture whose weights are in ascending order. -/
def gmmAsc : GMM :=
  ⟨.vec [1, 3], [[0], [1]], .full [[[1]], [[1]]], .full [[[1]], [[1]]],
    .full [[[1]], [[1]]], .full [[[1]], [[1]]], "full", [1], 2⟩

/-- A two-component reference mixture with distinct means. -/
def gmmRefC : GMM :=
  ⟨.vec [2, 2], [[5], [6]], .full [[[1]], [[1]]], .full [[[1]], [[1]]],
    .full [[[1]], [[1]]], .full [[[1]], [[1]]], "full", [1], 2⟩

/-- Counterexample to C4 as stated: on a fitted mixture whose clusters are
not in descending-weight order, `update_gmm_with_priors` with
`kappa = nu = zeta = 0` does NOT leave the parameters unchanged — the
mandatory `order_cluster` preprocessing permutes the mixing weights. -/
theorem update_priors_zero_reorders_counterexample :
    (update_gmm_with_priors cpcId scoreZero gmmAsc gmmRefC
        (zerosLikeW gmmRefC.weights_) [0, 0] [[0], [0]] false "semi").1.weights_
      ≠ gmmAsc.weights_ := by
  rw [update_priors_fst_eq, update_chol_tail_weights]
  dsimp only
  rw [update_loop_weights]
  rw [show (order_cluster cpcId scoreZero (compute_clusters_precision cpcId gmmAsc)
      gmmRefC).1.1.weights_ = WVal.vec [3, 1] from by decide]
  norm_num [weightsBlend, weightsBlendZr, zerosLikeW, WVal.hadamard, vecAdd,
    gmmRefC, gmmAsc]

/-- A tied-covariance two-component mixture already in descending-weight
order. -/
def gmmTiedD : GMM :=
  ⟨.vec [3, 1], [[0], [1]], .tied [], .tied [], .tied [], .tied [],
    "tied", [1], 2⟩

/-- A tied-covariance two-component reference mixture with distinct means. -/
def gmmTiedR : GMM :=
  ⟨.vec [2, 2], [[5], [6]], .tied [], .tied [], .tied [], .tied [],
    "tied", [1], 2⟩

/-- A precision-Cholesky stand-in returning an empty tied factor, for which
the Cholesky round trip is exact on the tied mixtures above. -/
def cpcEmpty : CholFn := fun _ _ => CovArr.tied []

/-- Witness for C4 (amended) at a concrete input. -/
theorem update_priors_zero_noop_witness :
    (update_gmm_with_priors cpcEmpty scoreZero gmmTiedD gmmTiedR
        (zerosLikeW gmmTiedR.weights_) [0, 0] [[0], [0]] false "semi").1.weights_
        = (order_cluster cpcEmpty scoreZero
            (compute_clusters_precision cpcEmpty gmmTiedD) gmmTiedR).1.1.weights_
      ∧ (update_gmm_with_priors cpcEmpty scoreZero gmmTiedD gmmTiedR
          (zerosLikeW gmmTiedR.weights_) [0, 0] [[0], [0]] false "semi").1.means_
        = (order_cluster cpcEmpty scoreZero
            (compute_clusters_precision cpcEmpty gmmTiedD) gmmTiedR).1.1.means_
      ∧ (update_gmm_with_priors cpcEmpty scoreZero gmmTiedD gmmTiedR
          (zerosLikeW gmmTiedR.weights_) [0, 0] [[0], [0]] false "semi").1.covariances_
        = (order_cluster cpcEmpty scoreZero
            (compute_clusters_precision cpcEmpty gmmTiedD) gmmTiedR).1.1.covariances_
      ∧ (update_gmm_with_priors cpcEmpty scoreZero gmmTiedD gmmTiedR
          (zerosLikeW gmmTiedR.weights_) [0, 0] [[0], [0]] false "semi").1.precisions_
        = (order_cluster cpcEmpty scoreZero
            (compute_clusters_precision cpcEmpty gmmTiedD) gmmTiedR).1.1.precisions_ :=
  update_priors_zero_noop cpcEmpty scoreZero gmmTiedD gmmTiedR [0, 0] [[0], [0]]
    "semi" (by decide) (by decide) (by decide) (by decide) (by decide)
    (by decide) (by decide) (by decide)

end SimPEGSpec
